import Mathlib

/-!
# Verification of the Mynta Core masternode-quorum consensus subsystem

Shallow embedding of the llmq / evo / assets components of the repository
(`src/llmq/chainlocks.cpp`, `src/llmq/instantsend.cpp`, `src/llmq/quorums.cpp`,
`src/evo/deterministicmns.cpp`, `src/evo/providertx.cpp`, `src/bls/bls.cpp`,
`src/assets/atomicswap.cpp`) together with proofs and refutations of the
specification's claims about them.

Modelling conventions:

* C++ `std::map` / `std::set` state is modelled by association lists with
  insert-or-replace semantics (`mapInsert`), or sorted lists for sets.
* 256-bit hashes (`uint256`), key ids and service endpoints are modelled as
  `Nat`; heights (`int`) as `Int`.
* A hash computed by `CHashWriter` is modelled as an injective encoding of the
  byte stream written to the writer: two modelled hashes are equal exactly when
  the streams fed to SHA-256 are equal.  Domain-separating string prefixes
  (`"utxo"`, `"addr"`, `"key"`, ...) become constructors of an inductive type.
* External collaborators that live outside the repository (BLS pairing
  library, `CService` address classification, ECDSA recovery, base-layer
  ancestor lookup) are oracle parameters of the definitions that call them.
-/

namespace Mynta

/-! ## Association-list maps (model of `std::map`) -/

/-- Lookup in an association-list map (`std::map::find`). -/
def mapFind {K V : Type} [DecidableEq K] (m : List (K × V)) (k : K) : Option V :=
  match m with
  | [] => none
  | p :: rest => if p.1 = k then some p.2 else mapFind rest k

/-- Insert-or-replace (`std::map::operator[] =`): replaces the binding of `k`
if present, otherwise appends a new binding. -/
def mapInsert {K V : Type} [DecidableEq K] (m : List (K × V)) (k : K) (v : V) :
    List (K × V) :=
  match m with
  | [] => [(k, v)]
  | p :: rest => if p.1 = k then (k, v) :: rest else p :: mapInsert rest k v

/-- Erase a key (`std::map::erase`). -/
def mapErase {K V : Type} [DecidableEq K] (m : List (K × V)) (k : K) :
    List (K × V) :=
  match m with
  | [] => []
  | p :: rest => if p.1 = k then mapErase rest k else p :: mapErase rest k

/-! ## ChainLocks (`src/llmq/chainlocks.cpp`)

`CChainLockSig` carries a height, a block hash and a recovered BLS signature.
The signature bytes are opaque to the lock database; they are modelled as a
`Nat`. -/

/-- `CChainLockSig` (`src/llmq/chainlocks.h`). -/
structure CChainLockSig where
  nHeight : Int
  blockHash : Nat
  sig : Nat
  deriving DecidableEq, Repr

/-- `CChainLocksDb` (`src/llmq/chainlocks.h`): locks indexed by height and by
block hash, plus the best (highest) locked height and its hash.  The fields
are default-initialised to `0` / null. -/
structure CChainLocksDb where
  locksByHeight : List (Int × CChainLockSig) := []
  locksByHash : List (Nat × CChainLockSig) := []
  bestChainLockHeight : Int := 0
  bestChainLockHash : Nat := 0
  deriving DecidableEq, Repr

namespace CChainLocksDb

/-- `CChainLocksDb::WriteChainLock`: refuse to go backwards (a height strictly
below the current best while a best exists), otherwise store the lock in both
indexes and raise the best height when the new lock is higher.  Returns the
C++ `bool` result together with the updated database. -/
def WriteChainLock (db : CChainLocksDb) (clsig : CChainLockSig) :
    Bool × CChainLocksDb :=
  if clsig.nHeight ≤ db.bestChainLockHeight ∧ db.bestChainLockHeight > 0 then
    if clsig.nHeight < db.bestChainLockHeight then
      (false, db)
    else
      writeBody db clsig
  else
    writeBody db clsig
where
  /-- The store-and-update-best tail of `WriteChainLock`. -/
  writeBody (db : CChainLocksDb) (clsig : CChainLockSig) : Bool × CChainLocksDb :=
    let db1 : CChainLocksDb :=
      { db with
        locksByHeight := mapInsert db.locksByHeight clsig.nHeight clsig
        locksByHash := mapInsert db.locksByHash clsig.blockHash clsig }
    let db2 : CChainLocksDb :=
      if clsig.nHeight > db1.bestChainLockHeight then
        { db1 with
          bestChainLockHeight := clsig.nHeight
          bestChainLockHash := clsig.blockHash }
      else db1
    (true, db2)

/-- `CChainLocksDb::GetBestChainLockHeight`. -/
def GetBestChainLockHeight (db : CChainLocksDb) : Int :=
  db.bestChainLockHeight

end CChainLocksDb

/-- `CBlockIndex` as seen by the ChainLock engine: only the height is
inspected by `CanReorg`. -/
structure CBlockIndex where
  nHeight : Int
  deriving DecidableEq, Repr

/-- `CChainLocksManager::CanReorg` (`src/llmq/chainlocks.cpp:351`).  Ancestor
lookup (`LastCommonAncestor`, base layer, outside this repository) is an
oracle parameter `lca`.  Returns `true` when either index is missing or no
common ancestor is found; otherwise refuses the reorg exactly when the fork
point's height is strictly below the best ChainLocked height. -/
def CanReorg (db : CChainLocksDb)
    (lca : CBlockIndex → CBlockIndex → Option CBlockIndex)
    (pindexNew pindexOld : Option CBlockIndex) : Bool :=
  match pindexNew, pindexOld with
  | some pNew, some pOld =>
      match lca pNew pOld with
      | none => true
      | some pindexFork =>
          if pindexFork.nHeight < db.GetBestChainLockHeight then false else true
  | _, _ => true

/-- Process a whole sequence of `WriteChainLock` calls, keeping the database. -/
def writeChainLockSeq (db : CChainLocksDb) (ls : List CChainLockSig) :
    CChainLocksDb :=
  ls.foldl (fun d cl => (d.WriteChainLock cl).2) db

/-! ## InstantSend (`src/llmq/instantsend.cpp`)

`COutPoint` is a (txid, output-index) pair ordered lexicographically by C++
`operator<`.  The InstantSend request id is the hash of the stream
`"islock_request" | outpoint_0 | outpoint_1 | …`; with hashes modelled as
injective stream encodings and the constant prefix shared by every request id,
a request id is modelled as the list of outpoints written to the hasher. -/

/-- `COutPoint`: transaction id plus output index. -/
structure COutPoint where
  txid : Nat
  n : Nat
  deriving DecidableEq, Repr

/-- C++ `operator<` on `COutPoint` (lexicographic), reflexive closure. -/
def opLe (a b : COutPoint) : Prop :=
  a.txid < b.txid ∨ (a.txid = b.txid ∧ a.n ≤ b.n)

instance : DecidableRel opLe := fun a b => by
  unfold opLe
  infer_instance

instance : IsTotal COutPoint opLe :=
  ⟨by
    intro a b
    unfold opLe
    omega⟩

instance : IsTrans COutPoint opLe :=
  ⟨by
    intro a b c hab hbc
    unfold opLe at *
    omega⟩

instance : IsAntisymm COutPoint opLe :=
  ⟨by
    intro a b hab hba
    unfold opLe at *
    cases a
    cases b
    simp_all
    omega⟩

/-- `CInstantSendLock` (`src/llmq/instantsend.h`): the locked inputs, the
locked transaction id, the signing quorum hash and the recovered signature. -/
structure CInstantSendLock where
  inputs : List COutPoint
  txid : Nat
  quorumHash : Nat
  sig : Nat
  deriving DecidableEq, Repr

/-- `CInstantSendManager::CreateRequestId`
(`src/llmq/instantsend.cpp:509`): hashes `"islock_request"` followed by the
outpoints **sorted ascending** (`std::sort` before hashing).  In the
injective-stream hash model the digest is the sorted outpoint list. -/
def CreateRequestId (inputs : List COutPoint) : List COutPoint :=
  List.insertionSort opLe inputs

/-- `CInstantSendLock::GetRequestId` (`src/llmq/instantsend.cpp:37`): hashes
`"islock_request"` followed by the stored inputs **in stored order** (no
sort).  In the injective-stream hash model the digest is the stored list. -/
def CInstantSendLock.GetRequestId (isl : CInstantSendLock) : List COutPoint :=
  isl.inputs

/-- `CInstantSendLock::GetHash` hashes the serialized lock; in the injective
hash model the digest is (represented by) the lock itself. -/
def CInstantSendLock.GetHash (isl : CInstantSendLock) : CInstantSendLock :=
  isl

/-- `CInstantSendDb` (`src/llmq/instantsend.h`): locks by hash, txid → lock
hash, and locked outpoint → lock hash.  Lock hashes are modelled by the locks
themselves (injective hash model). -/
structure CInstantSendDb where
  locksById : List (CInstantSendLock × CInstantSendLock) := []
  txidToLockHash : List (Nat × CInstantSendLock) := []
  inputLocks : List (COutPoint × CInstantSendLock) := []
  deriving DecidableEq, Repr

namespace CInstantSendDb

/-- `CInstantSendDb::GetLock`. -/
def GetLock (db : CInstantSendDb) (hash : CInstantSendLock) :
    Option CInstantSendLock :=
  mapFind db.locksById hash

/-- `CInstantSendDb::IsInputLocked`. -/
def IsInputLocked (db : CInstantSendDb) (outpoint : COutPoint) : Bool :=
  (mapFind db.inputLocks outpoint).isSome

/-- `CInstantSendDb::IsTxLocked`. -/
def IsTxLocked (db : CInstantSendDb) (txid : Nat) : Bool :=
  (mapFind db.txidToLockHash txid).isSome

/-- `CInstantSendDb::GetLockForInput`: resolve the outpoint index to a lock
hash, then the hash to the lock. -/
def GetLockForInput (db : CInstantSendDb) (outpoint : COutPoint) :
    Option CInstantSendLock :=
  match mapFind db.inputLocks outpoint with
  | none => none
  | some h => db.GetLock h

/-- `CInstantSendDb::WriteLock` (`src/llmq/instantsend.cpp:72`): store the
lock under its hash, index its txid, and index every input outpoint.  Always
returns `true`. -/
def WriteLock (db : CInstantSendDb) (islock : CInstantSendLock) :
    Bool × CInstantSendDb :=
  let hash := islock.GetHash
  (true,
    { locksById := mapInsert db.locksById hash islock
      txidToLockHash := mapInsert db.txidToLockHash islock.txid hash
      inputLocks := islock.inputs.foldl (fun m i => mapInsert m i hash)
        db.inputLocks })

end CInstantSendDb

/-- The conflict scan inside `CInstantSendManager::ProcessInstantSendLock`
(`src/llmq/instantsend.cpp:287`): some input is already indexed, resolves to a
stored lock, and that lock's txid differs from the incoming lock's txid. -/
def islockHasConflict (db : CInstantSendDb) (islock : CInstantSendLock) : Bool :=
  islock.inputs.any (fun input =>
    db.IsInputLocked input &&
      (match db.GetLockForInput input with
       | some existingLock => decide (existingLock.txid ≠ islock.txid)
       | none => false))

/-- `CInstantSendManager::ProcessInstantSendLock`
(`src/llmq/instantsend.cpp:272`).  Signature verification
(`VerifyInstantSendLock`, which consults the quorum manager and the BLS
pairing library) is the oracle parameter `verify`.  Result: the C++ return
value, the `CValidationState` DoS report (score, reject reason) if any, and
the updated lock database.  (The manager's pending-transaction bookkeeping
does not touch the lock database and is elided.) -/
def ProcessInstantSendLock (verify : CInstantSendLock → Bool)
    (db : CInstantSendDb) (islock : CInstantSendLock) :
    Bool × Option (Nat × String) × CInstantSendDb :=
  if db.IsTxLocked islock.txid then
    (true, none, db)
  else if ¬ verify islock then
    (false, some (100, "bad-islock-sig"), db)
  else if islockHasConflict db islock then
    (false, some (100, "islock-conflict"), db)
  else
    let w := db.WriteLock islock
    (w.1, none, w.2)

/-- Process a sequence of received InstantSend locks, keeping the database. -/
def processISLockSeq (verify : CInstantSendLock → Bool)
    (db : CInstantSendDb) (ls : List CInstantSendLock) : CInstantSendDb :=
  ls.foldl (fun d l => (ProcessInstantSendLock verify d l).2.2) db

/-- A lock is stored when the by-hash index holds it under its own hash. -/
def storedLock (db : CInstantSendDb) (L : CInstantSendLock) : Prop :=
  mapFind db.locksById L = some L

/-- Well-formedness of the InstantSend lock database: by-hash entries bind a
lock to its own hash, the txid and outpoint indexes resolve to stored locks
consistently, and conversely every stored lock is indexed. -/
def ISDbInv (db : CInstantSendDb) : Prop :=
  (∀ p ∈ db.locksById, p.2 = p.1) ∧
  (∀ t h, mapFind db.txidToLockHash t = some h → storedLock db h ∧ h.txid = t) ∧
  (∀ L, storedLock db L → mapFind db.txidToLockHash L.txid = some L) ∧
  (∀ o h, mapFind db.inputLocks o = some h → storedLock db h ∧ o ∈ h.inputs) ∧
  (∀ L o, storedLock db L → o ∈ L.inputs → mapFind db.inputLocks o = some L)

/-! ## Deterministic masternode list (`src/evo/deterministicmns.cpp`)

Key ids, service endpoints and block hashes are `Nat`; scripts are byte lists.
The `std::map<uint256, CDeterministicMNCPtr>` entry map is modelled as a list
of entries keyed by the `proTxHash` stored in each entry, with
insert-or-replace semantics.  The unique-property hashes
`H("utxo"|outpoint)`, `H("addr"|service)`, `H("key"|keyid)` are modelled by
an inductive type whose constructors carry the hashed datum (injective-stream
hash model with the three string tags as domain separators). -/

/-- `CDeterministicMNState` (`src/evo/deterministicmns.h`). -/
structure CDeterministicMNState where
  nRegisteredHeight : Int := -1
  nLastPaidHeight : Int := 0
  nPoSePenalty : Int := 0
  nPoSeRevivedHeight : Int := -1
  nPoSeBanHeight : Int := -1
  nRevocationReason : Nat := 0
  keyIDOwner : Nat := 0
  vchOperatorPubKey : List Nat := []
  keyIDVoting : Nat := 0
  addr : Nat := 0
  scriptPayout : List Nat := []
  scriptOperatorPayout : List Nat := []
  deriving DecidableEq, Repr

/-- `CDeterministicMNState::IsBanned`. -/
def CDeterministicMNState.IsBanned (s : CDeterministicMNState) : Bool :=
  s.nPoSeBanHeight ≠ -1

/-- `CDeterministicMN` (`src/evo/deterministicmns.h`). -/
structure CDeterministicMN where
  proTxHash : Nat
  collateralOutpoint : COutPoint
  nOperatorReward : Nat := 0
  state : CDeterministicMNState
  internalId : Nat := 0
  deriving DecidableEq, Repr

/-- `CDeterministicMN::IsValid`: not banned and not revoked. -/
def CDeterministicMN.IsValid (mn : CDeterministicMN) : Bool :=
  ¬ mn.state.IsBanned && mn.state.nRevocationReason = 0

/-- The unique-property hashes `H("utxo"|outpoint)`, `H("addr"|service)`,
`H("key"|keyid)` in the injective-stream hash model. -/
inductive UniquePropertyHash where
  | utxo (outpoint : COutPoint)
  | addr (service : Nat)
  | key (keyId : Nat)
  deriving DecidableEq, Repr

/-- `CDeterministicMNList` (`src/evo/deterministicmns.h`). -/
structure CDeterministicMNList where
  blockHash : Nat := 0
  nHeight : Int := -1
  nTotalRegisteredCount : Nat := 0
  mnMap : List CDeterministicMN := []
  mnUniquePropertyMap : List (UniquePropertyHash × Nat) := []
  deriving DecidableEq, Repr

/-- Find an entry by `proTxHash` (`std::map::find` on the entry map). -/
def mnMapFind (m : List CDeterministicMN) (proTxHash : Nat) :
    Option CDeterministicMN :=
  match m with
  | [] => none
  | mn :: rest => if mn.proTxHash = proTxHash then some mn
      else mnMapFind rest proTxHash

/-- Insert-or-replace an entry keyed by its `proTxHash`
(`mnMap[mn->proTxHash] = mn`). -/
def mnMapInsert (m : List CDeterministicMN) (mn : CDeterministicMN) :
    List CDeterministicMN :=
  match m with
  | [] => [mn]
  | e :: rest => if e.proTxHash = mn.proTxHash then mn :: rest
      else e :: mnMapInsert rest mn

/-- Erase the entry with the given `proTxHash` (`mnMap.erase`). -/
def mnMapErase (m : List CDeterministicMN) (proTxHash : Nat) :
    List CDeterministicMN :=
  match m with
  | [] => []
  | e :: rest => if e.proTxHash = proTxHash then mnMapErase rest proTxHash
      else e :: mnMapErase rest proTxHash

namespace CDeterministicMNList

/-- `CDeterministicMNList::GetMN`. -/
def GetMN (l : CDeterministicMNList) (proTxHash : Nat) :
    Option CDeterministicMN :=
  mnMapFind l.mnMap proTxHash

/-- `CDeterministicMNList::GetMNByCollateral`: linear scan of the entry map. -/
def GetMNByCollateral (l : CDeterministicMNList) (collateralOutpoint : COutPoint) :
    Option CDeterministicMN :=
  l.mnMap.find? (fun mn => mn.collateralOutpoint = collateralOutpoint)

/-- `CDeterministicMNList::GetMNByService`: linear scan of the entry map. -/
def GetMNByService (l : CDeterministicMNList) (addr : Nat) :
    Option CDeterministicMN :=
  l.mnMap.find? (fun mn => mn.state.addr = addr)

/-- `CDeterministicMNList::HasUniqueProperty`. -/
def HasUniqueProperty (l : CDeterministicMNList) (p : UniquePropertyHash) : Bool :=
  (mapFind l.mnUniquePropertyMap p).isSome

/-- `CDeterministicMNList::AddMN` (`src/evo/deterministicmns.cpp:217`):
insert the entry, index its three unique properties, and bump the
total-registered counter.  Returns the new (immutable) list. -/
def AddMN (l : CDeterministicMNList) (mn : CDeterministicMN) :
    CDeterministicMNList :=
  { l with
    mnMap := mnMapInsert l.mnMap mn
    mnUniquePropertyMap :=
      mapInsert
        (mapInsert
          (mapInsert l.mnUniquePropertyMap
            (UniquePropertyHash.utxo mn.collateralOutpoint) mn.proTxHash)
          (UniquePropertyHash.addr mn.state.addr) mn.proTxHash)
        (UniquePropertyHash.key mn.state.keyIDOwner) mn.proTxHash
    nTotalRegisteredCount := l.nTotalRegisteredCount + 1 }

/-- `CDeterministicMNList::UpdateMN` (`src/evo/deterministicmns.cpp:231`):
no-op when the entry is missing; otherwise replace the entry's state, moving
the address index entry when the address changed. -/
def UpdateMN (l : CDeterministicMNList) (proTxHash : Nat)
    (newState : CDeterministicMNState) : CDeterministicMNList :=
  match l.GetMN proTxHash with
  | none => l
  | some mn =>
      { l with
        mnUniquePropertyMap :=
          if mn.state.addr ≠ newState.addr then
            mapInsert
              (mapErase l.mnUniquePropertyMap
                (UniquePropertyHash.addr mn.state.addr))
              (UniquePropertyHash.addr newState.addr) proTxHash
          else l.mnUniquePropertyMap
        mnMap := mnMapInsert l.mnMap { mn with state := newState } }

/-- `CDeterministicMNList::RemoveMN` (`src/evo/deterministicmns.cpp:254`):
no-op when the entry is missing; otherwise erase the entry and its three
unique-property index entries. -/
def RemoveMN (l : CDeterministicMNList) (proTxHash : Nat) :
    CDeterministicMNList :=
  match l.GetMN proTxHash with
  | none => l
  | some mn =>
      { l with
        mnMap := mnMapErase l.mnMap proTxHash
        mnUniquePropertyMap :=
          mapErase
            (mapErase
              (mapErase l.mnUniquePropertyMap
                (UniquePropertyHash.utxo mn.collateralOutpoint))
              (UniquePropertyHash.addr mn.state.addr))
            (UniquePropertyHash.key mn.state.keyIDOwner) }

/-- `CDeterministicMNList::GetValidMNsForPayment`: the valid entries in entry
map iteration order. -/
def GetValidMNsForPayment (l : CDeterministicMNList) :
    List CDeterministicMN :=
  l.mnMap.filter (fun mn => mn.IsValid)

/-- One iteration of the `GetMNPayee` scan: `winner = none` plays the role of
the `first` flag, and the running `lowestScore` is the winner's score; the
winner is replaced exactly when the candidate's score is strictly lower. -/
def payeeStep (scoreH : Nat → Nat → Nat) (blockHashForPayment : Nat)
    (winner : Option CDeterministicMN) (mn : CDeterministicMN) :
    Option CDeterministicMN :=
  match winner with
  | none => some mn
  | some w =>
      if scoreH mn.proTxHash blockHashForPayment <
          scoreH w.proTxHash blockHashForPayment then some mn
      else winner

/-- `CDeterministicMNList::GetMNPayee` (`src/evo/deterministicmns.cpp:191`).
`CDeterministicMN::CalcScore` hashes `proTxHash | blockHash`; the hash is the
oracle parameter `scoreH`.  Scans the valid entries keeping the first one
(`first || score < lowestScore`, strict) whose score is lowest. -/
def GetMNPayee (scoreH : Nat → Nat → Nat) (l : CDeterministicMNList)
    (blockHashForPayment : Nat) : Option CDeterministicMN :=
  let validMNs := l.GetValidMNsForPayment
  if validMNs = [] then none
  else validMNs.foldl (payeeStep scoreH blockHashForPayment) none

end CDeterministicMNList

/-- A one-entry sample list for the C10 witness. -/
def c10SampleList : CDeterministicMNList :=
  { mnMap := [{ proTxHash := 5, collateralOutpoint := ⟨1, 0⟩, state := {} }] }

/-- Three-entry sample list (strictly increasing `proTxHash`) for C6. -/
def c6SampleList : CDeterministicMNList :=
  { mnMap := [{ proTxHash := 1, collateralOutpoint := ⟨1, 0⟩, state := {} },
              { proTxHash := 2, collateralOutpoint := ⟨2, 0⟩, state := {} },
              { proTxHash := 3, collateralOutpoint := ⟨3, 0⟩, state := {} }] }

/-- Sample score hash for C6 (scores 2, 0, 0 for entries 1, 2, 3: a tie at
the minimum between entries 2 and 3). -/
def c6Score : Nat → Nat → Nat := fun h _ => h % 2

/-! ## BLS threshold signature recovery (`src/bls/bls.cpp`)

The G2 signature group lives in the external BLST library.  Signatures are
scalar multiples of the hashed message point, so the subgroup relevant to
aggregation is modelled in scalar (discrete-logarithm) representation: an
abstract additive commutative monoid `G`, specialised to the BLS scalar field
when Lagrange coefficients are involved.  `CBLSSignature` is `Option G`:
`none` models an invalid (`!IsValid()`) or uncompressible signature. -/

/-- `CBLSSignature::AggregateSignatures` (`src/bls/bls.cpp:533`): empty input
yields an invalid signature; a single share is returned as-is; otherwise any
invalid share yields an invalid signature and the result is the group sum of
the shares with equal weight. -/
def AggregateSignatures {G : Type} [AddCommMonoid G] :
    List (Option G) → Option G
  | [] => none
  | [s] => s
  | sigs@(_ :: _ :: _) =>
      if sigs.all Option.isSome then some ((sigs.filterMap id).sum) else none

/-- `CBLSSignature::RecoverThresholdSignature` (`src/bls/bls.cpp:650`):
returns an invalid signature when fewer than `threshold` shares are supplied
or the share and id counts differ; otherwise ("Simplified: aggregate shares
with equal weight") it ignores the ids and plainly aggregates the shares. -/
def RecoverThresholdSignature {G I : Type} [AddCommMonoid G]
    (sigShares : List (Option G)) (ids : List I) (threshold : Nat) : Option G :=
  if sigShares.length < threshold ∨ sigShares.length ≠ ids.length then none
  else AggregateSignatures sigShares

/-- Modelled from the spec: the Lagrange basis coefficient
`λ_x = ∏_{y ≠ x} y / (y − x)` over the BLS scalar field, evaluated at zero.
The scalar-field arithmetic itself lives in the external BLST library and is
not part of this repository, so the field is abstract. -/
def lagrangeCoeff {F : Type} [Field F] [DecidableEq F]
    (ids : List F) (x : F) : F :=
  ((ids.filter (fun y => y ≠ x)).map (fun y => y / (y - x))).prod

/-- Modelled from the spec: "RecoverThresholdSignature(shares, ids, threshold)
via Lagrange interpolation over BLS scalar field — shares from distinct
member ids, at least threshold of them": `∑_i λ_{id_i} · share_i`, with the
signature group in scalar representation.  Invalid when fewer than threshold
shares, mismatched counts, duplicate ids, or an invalid share. -/
def RecoverThresholdSignatureSpec {F : Type} [Field F] [DecidableEq F]
    (sigShares : List (Option F)) (ids : List F) (threshold : Nat) : Option F :=
  if sigShares.length < threshold ∨ sigShares.length ≠ ids.length ∨
      ¬ ids.Nodup ∨ ¬ sigShares.all Option.isSome then none
  else
    some (((ids.zip (sigShares.filterMap id)).map
      (fun p => lagrangeCoeff ids p.1 * p.2)).sum)

/-! ## Quorum manager and signing manager (`src/llmq/quorums.cpp`)

BLS signature share bytes are opaque to the share bookkeeping and are
modelled as `Nat`; the designated-quorum selection
(`SelectQuorumForSigning`, which hashes over the active quorum set at the
current chain tip) and the BLS recovery call are oracle parameters. -/

/-- `LLMQType` (`src/llmq/quorums.h`). -/
inductive LLMQType where
  | LLMQ_NONE
  | LLMQ_50_60
  | LLMQ_400_60
  | LLMQ_400_85
  | LLMQ_100_67
  deriving DecidableEq, Repr

/-- `LLMQParams` (`src/llmq/quorums.h`). -/
structure LLMQParams where
  type : LLMQType
  name : String
  size : Nat
  minSize : Nat
  threshold : Nat
  dkgInterval : Nat
  dkgPhaseBlocks : Nat
  signingActiveQuorumCount : Nat
  deriving DecidableEq, Repr

/-- `GetLLMQParams` (`src/llmq/quorums.cpp:23`): the static parameter table
with a zeroed default for unknown types. -/
def GetLLMQParams : LLMQType → LLMQParams
  | .LLMQ_NONE => ⟨.LLMQ_NONE, "none", 0, 0, 0, 0, 0, 0⟩
  | .LLMQ_50_60 => ⟨.LLMQ_50_60, "llmq_50_60", 50, 40, 60, 24, 6, 24⟩
  | .LLMQ_400_60 => ⟨.LLMQ_400_60, "llmq_400_60", 400, 300, 60, 288, 20, 4⟩
  | .LLMQ_400_85 => ⟨.LLMQ_400_85, "llmq_400_85", 400, 350, 85, 576, 20, 4⟩
  | .LLMQ_100_67 => ⟨.LLMQ_100_67, "llmq_100_67", 100, 80, 67, 24, 6, 24⟩

/-- `CQuorumMember` (`src/llmq/quorums.h`). -/
structure CQuorumMember where
  proTxHash : Nat
  pubKeyOperator : Nat
  valid : Bool
  deriving DecidableEq, Repr

/-- `CQuorum` (`src/llmq/quorums.h`). -/
structure CQuorum where
  llmqType : LLMQType
  quorumHash : Nat
  quorumHeight : Int := 0
  members : List CQuorumMember := []
  quorumPublicKey : Nat := 0
  validMemberCount : Nat := 0
  fValid : Bool := false
  deriving DecidableEq, Repr

/-- `CQuorum::IsMember`: membership of a `proTxHash` among all members. -/
def CQuorum.IsMember (q : CQuorum) (proTxHash : Nat) : Bool :=
  q.members.any (fun m => m.proTxHash = proTxHash)

/-- `CQuorum::GetThreshold` (`src/llmq/quorums.cpp:113`):
`(validMemberCount * params.threshold + 99) / 100` in integer arithmetic. -/
def CQuorum.GetThreshold (q : CQuorum) : Nat :=
  (q.validMemberCount * (GetLLMQParams q.llmqType).threshold + 99) / 100

/-- `CRecoveredSig` (`src/llmq/quorums.h`). -/
structure CRecoveredSig where
  llmqType : LLMQType
  quorumHash : Nat
  id : Nat
  msgHash : Nat
  sig : Nat
  deriving DecidableEq, Repr

/-- The signing manager's share bookkeeping (`src/llmq/quorums.h`):
session id → (member proTxHash → signature share), plus the recovered
signature cache. -/
structure CSigningManager where
  sigShares : List (Nat × List (Nat × Nat)) := []
  recoveredSigs : List (Nat × CRecoveredSig) := []
  deriving DecidableEq, Repr

/-- The member-share collection loop of `TryRecoverSignature`
(`src/llmq/quorums.cpp:553`): walk the share map, keep shares from quorum
members, and stop as soon as `threshold` members' shares are collected. -/
def collectMemberShares (q : CQuorum) (threshold : Nat) :
    List (Nat × Nat) → List (Nat × Nat) → List (Nat × Nat)
  | [], acc => acc
  | (proTxHash, sig) :: rest, acc =>
      if q.IsMember proTxHash then
        let acc' := acc ++ [(proTxHash, sig)]
        if threshold ≤ acc'.length then acc'
        else collectMemberShares q threshold rest acc'
      else collectMemberShares q threshold rest acc

/-- `CSigningManager::TryRecoverSignature` (`src/llmq/quorums.cpp:514`).
`selectQuorum` is the designated quorum returned by
`SelectQuorumForSigning(type, tip, id)`; `recover` is
`CBLSSignature::RecoverThresholdSignature` on the opaque share bytes,
returning `none` for an invalid result.  Returns the recovered signature
(`true` in C++) or `none` (`false`). -/
def TryRecoverSignature (selectQuorum : Option CQuorum)
    (recover : List Nat → List Nat → Nat → Option Nat)
    (st : CSigningManager) (llmqType : LLMQType) (id msgHash : Nat) :
    Option CRecoveredSig :=
  match mapFind st.recoveredSigs id with
  | some recSig => some recSig
  | none =>
      match mapFind st.sigShares id with
      | none => none
      | some shares =>
          match selectQuorum with
          | none => none
          | some quorum =>
              let threshold := quorum.GetThreshold
              if shares.length < threshold then none
              else
                let collected := collectMemberShares quorum threshold shares []
                if collected.length < threshold then none
                else
                  match recover (collected.map (fun p => p.2))
                      (collected.map (fun p => p.1)) threshold with
                  | none => none
                  | some sig =>
                      some ⟨llmqType, quorum.quorumHash, id, msgHash, sig⟩

/-- The number of accumulated shares for a session that come from members of
a given quorum. -/
def memberShareCount (st : CSigningManager) (q : CQuorum) (id : Nat) : Nat :=
  match mapFind st.sigShares id with
  | none => 0
  | some shares => (shares.filter (fun p => q.IsMember p.1)).length

/-- A five-valid-member 50/60 quorum: threshold `(5·60+99)/100 = 3`. -/
def c7Quorum : CQuorum :=
  { llmqType := .LLMQ_50_60, quorumHash := 9, validMemberCount := 5,
    members := [⟨1, 0, true⟩] }

/-- A signing-manager state with a single share (from member 1) for session
7 and nothing recovered. -/
def c7State : CSigningManager := { sigShares := [(7, [(1, 11)])] }

/-- The cached recovered signature used by the C7 counterexample. -/
def c7RecSig : CRecoveredSig := ⟨.LLMQ_50_60, 9, 7, 0, 42⟩

/-- A signing-manager state whose recovered-signature cache already holds a
signature for session 7 while no share at all is accumulated. -/
def c7StateCached : CSigningManager := { recoveredSigs := [(7, c7RecSig)] }

/-! ## Atomic-swap order book (`src/assets/atomicswap.cpp`)

`std::set<uint256>` pair buckets are modelled as lists of `Nat` with
`std::set` insert/erase semantics. -/

/-- Ordered-set insert (`std::set::insert`): no effect on an element already
present. -/
def setInsert : List Nat → Nat → List Nat
  | [], x => [x]
  | y :: rest, x =>
      if x < y then x :: y :: rest
      else if x = y then y :: rest
      else y :: setInsert rest x

/-- Ordered-set erase (`std::set::erase`). -/
def setErase : List Nat → Nat → List Nat
  | [], _ => []
  | y :: rest, x => if y = x then rest else y :: setErase rest x

/-- `CAtomicSwapOffer` (`src/assets/atomicswap.h`). -/
structure CAtomicSwapOffer where
  offerHash : Nat
  makerAssetName : String
  makerAmount : Int
  makerAddress : List Nat := []
  takerAssetName : String
  takerAmount : Int
  hashLock : Nat := 0
  timeoutBlocks : Nat := 0
  createdHeight : Int := 0
  isActive : Bool := true
  isFilled : Bool := false
  fillTxHash : Nat := 0
  deriving DecidableEq, Repr

/-- Lexicographic `std::string::operator<` (std library, outside this
repository), modelled on the character lists. -/
def strLtb : List Char → List Char → Bool
  | [], [] => false
  | [], _ :: _ => true
  | _ :: _, [] => false
  | c :: cs, d :: ds =>
      if c.toNat < d.toNat then true
      else if d.toNat < c.toNat then false
      else strLtb cs ds

/-- `a < b` on the modelled `std::string`. -/
def stringLt (a b : String) : Bool := strLtb a.data b.data

/-- `GetTradingPairKey` (`src/assets/atomicswap.cpp:505`): normalize the
empty asset name to "MYNTA", sort the two names lexicographically, join with
":". -/
def GetTradingPairKey (assetA assetB : String) : String :=
  let a := if assetA = "" then "MYNTA" else assetA
  let b := if assetB = "" then "MYNTA" else assetB
  if stringLt b a then b ++ ":" ++ a else a ++ ":" ++ b

/-- `CAtomicSwapOrderBook` (`src/assets/atomicswap.h`): offers by hash and
the pair index mapping a trading-pair key to the bucket of offer hashes. -/
structure CAtomicSwapOrderBook where
  offers : List (Nat × CAtomicSwapOffer) := []
  offersByPair : List (String × List Nat) := []
  deriving DecidableEq, Repr

/-- `offersByPair[pairKey]` read access: the bucket, or the empty set. -/
def lookupBucket (m : List (String × List Nat)) (k : String) : List Nat :=
  (mapFind m k).getD []

namespace CAtomicSwapOrderBook

/-- `CAtomicSwapOrderBook::AddOffer` (`src/assets/atomicswap.cpp:242`):
refuse a duplicate offer hash; otherwise store the offer and insert its hash
into the pair bucket (`offersByPair[pairKey].insert` creates the bucket if
absent). -/
def AddOffer (book : CAtomicSwapOrderBook) (offer : CAtomicSwapOffer) :
    Bool × CAtomicSwapOrderBook :=
  if (mapFind book.offers offer.offerHash).isSome then (false, book)
  else
    let pairKey := GetTradingPairKey offer.makerAssetName offer.takerAssetName
    (true,
      { offers := mapInsert book.offers offer.offerHash offer
        offersByPair := mapInsert book.offersByPair pairKey
          (setInsert (lookupBucket book.offersByPair pairKey)
            offer.offerHash) })

/-- `CAtomicSwapOrderBook::RemoveOffer` (`src/assets/atomicswap.cpp:260`):
fail on an unknown hash; otherwise erase the hash from the pair bucket
(leaving the bucket itself in place, `offersByPair[pairKey].erase`) and
erase the offer. -/
def RemoveOffer (book : CAtomicSwapOrderBook) (offerHash : Nat) :
    Bool × CAtomicSwapOrderBook :=
  match mapFind book.offers offerHash with
  | none => (false, book)
  | some offer =>
      let pairKey := GetTradingPairKey offer.makerAssetName offer.takerAssetName
      (true,
        { offers := mapErase book.offers offerHash
          offersByPair := mapInsert book.offersByPair pairKey
            (setErase (lookupBucket book.offersByPair pairKey) offerHash) })

end CAtomicSwapOrderBook

/-! ## Provider transactions (`src/evo/providertx.cpp`)

The payload codec, ECDSA recovery (`CPubKey::RecoverCompact`), `CService`
address classification and script standardness live outside this repository's
consensus layer; they are oracle parameters (`ProviderTxOracles`).  A
transaction carries its decoded payload (`none` models a payload that fails
to deserialize). -/

/-- `CProRegTx` (`src/evo/providertx.h`). -/
structure CProRegTx where
  nVersion : Nat := 1
  nMode : Nat := 0
  collateralOutpoint : COutPoint
  addr : Nat
  keyIDOwner : Nat
  vchOperatorPubKey : List Nat := []
  keyIDVoting : Nat := 0
  nOperatorReward : Nat := 0
  scriptPayout : List Nat := []
  inputsHash : Nat := 0
  vchSig : List Nat := []
  deriving DecidableEq, Repr

/-- `CProUpServTx` (`src/evo/providertx.h`). -/
structure CProUpServTx where
  nVersion : Nat := 1
  proTxHash : Nat
  addr : Nat
  scriptOperatorPayout : List Nat := []
  inputsHash : Nat := 0
  vchSig : List Nat := []
  deriving DecidableEq, Repr

/-- `CProUpRegTx` (`src/evo/providertx.h`). -/
structure CProUpRegTx where
  nVersion : Nat := 1
  proTxHash : Nat
  nMode : Nat := 0
  vchOperatorPubKey : List Nat := []
  keyIDVoting : Nat := 0
  scriptPayout : List Nat := []
  inputsHash : Nat := 0
  vchSig : List Nat := []
  deriving DecidableEq, Repr

/-- `CProUpRevTx` (`src/evo/providertx.h`). -/
structure CProUpRevTx where
  nVersion : Nat := 1
  proTxHash : Nat
  nReason : Nat := 0
  inputsHash : Nat := 0
  vchSig : List Nat := []
  deriving DecidableEq, Repr

/-- The decoded special-transaction payload. -/
inductive ProviderPayload where
  | reg (p : CProRegTx)
  | upServ (p : CProUpServTx)
  | upReg (p : CProUpRegTx)
  | upRev (p : CProUpRevTx)
  deriving DecidableEq, Repr

/-- `CTransaction` as seen by the provider-transaction layer: version, type
tag, txid (`GetHash`), input prevouts and the decoded extra payload
(`none` = `GetTxPayload` failure). -/
structure CTransaction where
  nVersion : Nat := 3
  nType : Nat
  hash : Nat
  vin : List COutPoint := []
  payload : Option ProviderPayload := none
  deriving DecidableEq, Repr

/-- `IsTxTypeSpecial` (`src/evo/providertx.cpp:34`): version ≥ 3 and a
non-zero type tag. -/
def IsTxTypeSpecial (tx : CTransaction) : Bool :=
  3 ≤ tx.nVersion ∧ tx.nType ≠ 0

/-- External collaborators used by provider-transaction validation. -/
structure ProviderTxOracles where
  svcValid : Nat → Bool
  svcRoutable : Nat → Bool
  isPayToPublicKeyHash : List Nat → Bool
  isPayToScriptHash : List Nat → Bool
  hashInputs : List COutPoint → Nat
  checkProRegSig : CProRegTx → Nat → Bool
  checkProUpRegSig : CProUpRegTx → Nat → Bool

/-- `CheckInputsHash` (`src/evo/providertx.cpp:172`): the hash of the
containing transaction's input prevouts must equal the payload's
`inputsHash`. -/
def CheckInputsHash (O : ProviderTxOracles) (tx : CTransaction)
    (expectedInputsHash : Nat) : Bool :=
  O.hashInputs tx.vin = expectedInputsHash

/-- `CheckProRegTx` (`src/evo/providertx.cpp:187`).  The duplicate-property
checks at the end run against the masternode list of the previous block
(`GetListForBlock(pindexPrev)`), passed as `prevList` (`none` when
`pindexPrev` is null). -/
def CheckProRegTx (O : ProviderTxOracles)
    (prevList : Option CDeterministicMNList) (tx : CTransaction) : Bool :=
  if tx.nType ≠ 1 then false
  else match tx.payload with
  | some (.reg proTx) =>
      if proTx.nVersion ≠ 1 then false
      else if proTx.nMode ≠ 0 then false
      else if 10000 < proTx.nOperatorReward then false
      else if ¬ O.svcValid proTx.addr then false
      else if ¬ O.svcRoutable proTx.addr then false
      else if proTx.vchOperatorPubKey.length ≠ 48 then false
      else if ¬ (O.isPayToPublicKeyHash proTx.scriptPayout ∨
          O.isPayToScriptHash proTx.scriptPayout) then false
      else if ¬ CheckInputsHash O tx proTx.inputsHash then false
      else if ¬ O.checkProRegSig proTx proTx.keyIDOwner then false
      else match prevList with
      | none => true
      | some mnList =>
          if mnList.HasUniqueProperty (.addr proTx.addr) then false
          else if mnList.HasUniqueProperty (.key proTx.keyIDOwner) then false
          else if (mnList.GetMNByCollateral proTx.collateralOutpoint).isSome
            then false
          else true
  | _ => false

/-- `CheckProUpServTx` (`src/evo/providertx.cpp:270`).  The entry-existence
check (`deterministicMNManager->GetMN`, the tip list) and the
address-conflict check (`GetListForBlock(pindexPrev)`) both read `prevList`:
during sequential block validation the tip list is the previous block's
list. -/
def CheckProUpServTx (O : ProviderTxOracles)
    (prevList : Option CDeterministicMNList) (tx : CTransaction) : Bool :=
  if tx.nType ≠ 2 then false
  else match tx.payload with
  | some (.upServ proTx) =>
      if proTx.nVersion ≠ 1 then false
      else if ¬ O.svcValid proTx.addr then false
      else if ¬ O.svcRoutable proTx.addr then false
      else if ¬ CheckInputsHash O tx proTx.inputsHash then false
      else match prevList with
      | none => true
      | some mnList =>
          match mnList.GetMN proTx.proTxHash with
          | none => false
          | some _ =>
              match mnList.GetMNByService proTx.addr with
              | some existingMN =>
                  if existingMN.proTxHash ≠ proTx.proTxHash then false
                  else if proTx.vchSig = [] then false
                  else true
              | none =>
                  if proTx.vchSig = [] then false
                  else true
  | _ => false

/-- `CheckProUpRegTx` (`src/evo/providertx.cpp:324`). -/
def CheckProUpRegTx (O : ProviderTxOracles)
    (prevList : Option CDeterministicMNList) (tx : CTransaction) : Bool :=
  if tx.nType ≠ 3 then false
  else match tx.payload with
  | some (.upReg proTx) =>
      if proTx.nVersion ≠ 1 then false
      else if proTx.vchOperatorPubKey ≠ [] ∧
          proTx.vchOperatorPubKey.length ≠ 48 then false
      else if proTx.scriptPayout ≠ [] ∧
          ¬ (O.isPayToPublicKeyHash proTx.scriptPayout ∨
            O.isPayToScriptHash proTx.scriptPayout) then false
      else if ¬ CheckInputsHash O tx proTx.inputsHash then false
      else match prevList with
      | none => true
      | some mnList =>
          match mnList.GetMN proTx.proTxHash with
          | none => false
          | some mn =>
              if ¬ O.checkProUpRegSig proTx mn.state.keyIDOwner then false
              else true
  | _ => false

/-- `CheckProUpRevTx` (`src/evo/providertx.cpp:373`). -/
def CheckProUpRevTx (O : ProviderTxOracles)
    (prevList : Option CDeterministicMNList) (tx : CTransaction) : Bool :=
  if tx.nType ≠ 4 then false
  else match tx.payload with
  | some (.upRev proTx) =>
      if proTx.nVersion ≠ 1 then false
      else if 3 < proTx.nReason then false
      else if ¬ CheckInputsHash O tx proTx.inputsHash then false
      else match prevList with
      | none => true
      | some mnList =>
          match mnList.GetMN proTx.proTxHash with
          | none => false
          | some _ =>
              if proTx.vchSig = [] then false
              else true
  | _ => false

/-- `CheckSpecialTx` (`src/evo/providertx.cpp:414`). -/
def CheckSpecialTx (O : ProviderTxOracles)
    (prevList : Option CDeterministicMNList) (tx : CTransaction) : Bool :=
  if ¬ IsTxTypeSpecial tx then true
  else match tx.nType with
  | 1 => CheckProRegTx O prevList tx
  | 2 => CheckProUpServTx O prevList tx
  | 3 => CheckProUpRegTx O prevList tx
  | 4 => CheckProUpRevTx O prevList tx
  | _ => false

/-- The `TRANSACTION_PROVIDER_REGISTER` arm of
`CDeterministicMNManager::ProcessBlock` (`src/evo/deterministicmns.cpp:335`):
build the entry from the payload, assign `internalId`, bump the
total-registered counter, and `AddMN` it (which bumps the counter again, as
in the source). -/
def applyProRegTx (l : CDeterministicMNList) (height : Int)
    (txHash : Nat) (proTx : CProRegTx) : CDeterministicMNList :=
  let newMN : CDeterministicMN :=
    { proTxHash := txHash
      collateralOutpoint := proTx.collateralOutpoint
      nOperatorReward := proTx.nOperatorReward
      state :=
        { nRegisteredHeight := height
          keyIDOwner := proTx.keyIDOwner
          vchOperatorPubKey := proTx.vchOperatorPubKey
          keyIDVoting := proTx.keyIDVoting
          addr := proTx.addr
          scriptPayout := proTx.scriptPayout }
      internalId := l.nTotalRegisteredCount }
  CDeterministicMNList.AddMN
    { l with nTotalRegisteredCount := l.nTotalRegisteredCount + 1 } newMN

/-- The new state built by the `PROVIDER_UPDATE_SERVICE` arm
(`src/evo/deterministicmns.cpp:362`). -/
def upServNewState (old : CDeterministicMNState) (proTx : CProUpServTx) :
    CDeterministicMNState :=
  { old with
    addr := proTx.addr
    scriptOperatorPayout :=
      if proTx.scriptOperatorPayout ≠ [] then proTx.scriptOperatorPayout
      else old.scriptOperatorPayout }

/-- The new state built by the `PROVIDER_UPDATE_REGISTRAR` arm
(`src/evo/deterministicmns.cpp:386`), including the PoSe reset on an
operator-key change. -/
def upRegNewState (height : Int) (old : CDeterministicMNState)
    (proTx : CProUpRegTx) : CDeterministicMNState :=
  let s1 := if proTx.vchOperatorPubKey ≠ [] then
      { old with vchOperatorPubKey := proTx.vchOperatorPubKey } else old
  let s2 := if proTx.keyIDVoting ≠ 0 then
      { s1 with keyIDVoting := proTx.keyIDVoting } else s1
  let s3 := if proTx.scriptPayout ≠ [] then
      { s2 with scriptPayout := proTx.scriptPayout } else s2
  if proTx.vchOperatorPubKey ≠ old.vchOperatorPubKey then
    { s3 with
      nPoSePenalty := 0
      nPoSeBanHeight := -1
      nPoSeRevivedHeight := height }
  else s3

/-- The new state built by the `PROVIDER_UPDATE_REVOKE` arm
(`src/evo/deterministicmns.cpp:422`). -/
def upRevNewState (height : Int) (old : CDeterministicMNState)
    (proTx : CProUpRevTx) : CDeterministicMNState :=
  { old with nRevocationReason := proTx.nReason, nPoSeBanHeight := height }

/-- One iteration of the transaction loop of
`CDeterministicMNManager::ProcessBlock` (`src/evo/deterministicmns.cpp:325`):
non-special transactions and unknown types are skipped, a missing payload or
unknown `proTxHash` aborts the block with a DoS reject reason. -/
def applySpecialTx (height : Int) (l : CDeterministicMNList)
    (tx : CTransaction) : Except String CDeterministicMNList :=
  if ¬ IsTxTypeSpecial tx then .ok l
  else match tx.nType with
  | 1 =>
      match tx.payload with
      | some (.reg proTx) => .ok (applyProRegTx l height tx.hash proTx)
      | _ => .error "bad-protx-payload"
  | 2 =>
      match tx.payload with
      | some (.upServ proTx) =>
          match l.GetMN proTx.proTxHash with
          | none => .error "bad-protx-hash"
          | some mn =>
              .ok (l.UpdateMN proTx.proTxHash (upServNewState mn.state proTx))
      | _ => .error "bad-protx-payload"
  | 3 =>
      match tx.payload with
      | some (.upReg proTx) =>
          match l.GetMN proTx.proTxHash with
          | none => .error "bad-protx-hash"
          | some mn =>
              .ok (l.UpdateMN proTx.proTxHash
                (upRegNewState height mn.state proTx))
      | _ => .error "bad-protx-payload"
  | 4 =>
      match tx.payload with
      | some (.upRev proTx) =>
          match l.GetMN proTx.proTxHash with
          | none => .error "bad-protx-hash"
          | some mn =>
              .ok (l.UpdateMN proTx.proTxHash
                (upRevNewState height mn.state proTx))
      | _ => .error "bad-protx-payload"
  | _ => .ok l

/-- The transaction loop of `ProcessBlock`. -/
def applySpecialTxs (height : Int) :
    CDeterministicMNList → List CTransaction →
    Except String CDeterministicMNList
  | l, [] => .ok l
  | l, tx :: rest =>
      match applySpecialTx height l tx with
      | .error e => .error e
      | .ok l' => applySpecialTxs height l' rest

/-- `CDeterministicMNManager::ProcessBlock`
(`src/evo/deterministicmns.cpp:301`): start a fresh list carrying the new
block hash and height, re-add every entry of the previous block's list, then
process the block's transactions. -/
def ProcessBlockMNList (prevList : CDeterministicMNList) (blockHash : Nat)
    (height : Int) (txs : List CTransaction) :
    Except String CDeterministicMNList :=
  let base := prevList.mnMap.foldl (fun acc mn => acc.AddMN mn)
    { blockHash := blockHash, nHeight := height }
  applySpecialTxs height base txs

/-- Whether an entry holds a given unique property. -/
def holdsProp (mn : CDeterministicMN) : UniquePropertyHash → Prop
  | .utxo o => mn.collateralOutpoint = o
  | .addr a => mn.state.addr = a
  | .key k => mn.state.keyIDOwner = k

/-- Two entries share none of the three unique properties. -/
def distinctProps (a b : CDeterministicMN) : Prop :=
  a.collateralOutpoint ≠ b.collateralOutpoint ∧
  a.state.addr ≠ b.state.addr ∧
  a.state.keyIDOwner ≠ b.state.keyIDOwner

/-- Well-formedness of a masternode list: entry keys are pairwise distinct,
no two entries share a collateral outpoint, endpoint or owner key, every
entry's three unique properties are indexed to its `proTxHash`, and every
index binding points back to an entry holding the property. -/
def MNListInv (l : CDeterministicMNList) : Prop :=
  l.mnMap.Pairwise (fun a b => a.proTxHash ≠ b.proTxHash) ∧
  l.mnMap.Pairwise distinctProps ∧
  (∀ mn ∈ l.mnMap,
    mapFind l.mnUniquePropertyMap (.utxo mn.collateralOutpoint) =
      some mn.proTxHash ∧
    mapFind l.mnUniquePropertyMap (.addr mn.state.addr) = some mn.proTxHash ∧
    mapFind l.mnUniquePropertyMap (.key mn.state.keyIDOwner) =
      some mn.proTxHash) ∧
  (∀ p h, mapFind l.mnUniquePropertyMap p = some h →
    ∃ mn ∈ l.mnMap, mn.proTxHash = h ∧ holdsProp mn p)

/-- Modelled from the spec: the masternode lists reachable from an empty
list by processing valid blocks.  Each block's transactions all pass
`CheckSpecialTx` against the previous block's list (as in
`ProcessSpecialTxsInBlock`); the freshness hypothesis for registration
txids models the chain guarantee that transaction hashes never repeat.
The at-most-one-special-transaction restriction is the amendment required
by `C4_counterexample`: the source checks every transaction of a block
against the previous block's list only, so two colliding registrations
inside one block both pass their checks. -/
inductive ReachableMNList (O : ProviderTxOracles) : CDeterministicMNList → Prop
  | base (bh : Nat) (h : Int) :
      ReachableMNList O { blockHash := bh, nHeight := h }
  | step (l l' : CDeterministicMNList) (bh : Nat) (h : Int)
      (txs : List CTransaction) :
      ReachableMNList O l →
      (txs.filter IsTxTypeSpecial).length ≤ 1 →
      (∀ tx ∈ txs, CheckSpecialTx O (some l) tx = true) →
      (∀ tx ∈ txs, tx.nType = 1 → l.GetMN tx.hash = none) →
      ProcessBlockMNList l bh h txs = .ok l' →
      ReachableMNList O l'

/-- Trivial external collaborators for the C4 witness and counterexample:
every service is valid and routable, every payout script is standard, the
input-prevouts hash is constantly `0` and every signature verifies. -/
def c4Oracles : ProviderTxOracles where
  svcValid := fun _ => true
  svcRoutable := fun _ => true
  isPayToPublicKeyHash := fun _ => true
  isPayToScriptHash := fun _ => false
  hashInputs := fun _ => 0
  checkProRegSig := fun _ _ => true
  checkProUpRegSig := fun _ _ => true

/-- The empty masternode list the C4 witness starts from. -/
def c4L0 : CDeterministicMNList := { blockHash := 0, nHeight := 0 }

/-- A well-formed provider registration (txid 100, endpoint 10, owner key
20, collateral 50:0). -/
def c4RegTx : CTransaction :=
  { nVersion := 3
    nType := 1
    hash := 100
    vin := []
    payload := some (.reg
      { collateralOutpoint := ⟨50, 0⟩
        addr := 10
        keyIDOwner := 20
        vchOperatorPubKey := List.replicate 48 0 }) }

/-- A second well-formed registration (txid 101, owner key 21, collateral
51:0) sharing endpoint 10 with `c4RegTx`. -/
def c4RegTxB : CTransaction :=
  { nVersion := 3
    nType := 1
    hash := 101
    vin := []
    payload := some (.reg
      { collateralOutpoint := ⟨51, 0⟩
        addr := 10
        keyIDOwner := 21
        vchOperatorPubKey := List.replicate 48 0 }) }

/-- The list obtained by processing the block `[c4RegTx]` on top of the
empty list. -/
def c4L1 : CDeterministicMNList :=
  match ProcessBlockMNList c4L0 1 1 [c4RegTx] with
  | .ok l => l
  | .error _ => c4L0

/-- The list obtained by processing the block `[c4RegTx, c4RegTxB]` — two
registrations sharing an endpoint — on top of the empty list. -/
def c4L2 : CDeterministicMNList :=
  match ProcessBlockMNList c4L0 1 1 [c4RegTx, c4RegTxB] with
  | .ok l => l
  | .error _ => c4L0

theorem mapFind_mapInsert_self {K V : Type} [DecidableEq K]
    (m : List (K × V)) (k : K) (v : V) : mapFind (mapInsert m k v) k = some v := by
  induction m with
  | nil => simp [mapInsert, mapFind]
  | cons p rest ih =>
      by_cases h : p.1 = k
      · simp [mapInsert, h, mapFind]
      · simp [mapInsert, h, mapFind, ih]

theorem mapFind_mapInsert_ne {K V : Type} [DecidableEq K]
    (m : List (K × V)) (k k' : K) (v : V) (hne : k ≠ k') :
    mapFind (mapInsert m k v) k' = mapFind m k' := by
  induction m with
  | nil => simp [mapInsert, mapFind, hne]
  | cons p rest ih =>
      by_cases h : p.1 = k
      · simp [mapInsert, h, mapFind, hne]
      · simp [mapInsert, h, mapFind, ih]

/-- Replacing a key's binding with the value it already has is the identity. -/
theorem mapInsert_self_eq {K V : Type} [DecidableEq K]
    (m : List (K × V)) (k : K) (v : V) (h : mapFind m k = some v) :
    mapInsert m k v = m := by
  induction m with
  | nil => simp [mapFind] at h
  | cons p rest ih =>
      obtain ⟨pk, pv⟩ := p
      by_cases hk : pk = k
      · subst hk
        simp [mapFind] at h
        simp [mapInsert, h]
      · simp [mapFind, hk] at h
        simp [mapInsert, hk, ih h]

/-- Erasing an absent key is the identity. -/
theorem mapErase_of_not_mem {K V : Type} [DecidableEq K]
    (m : List (K × V)) (k : K) (h : mapFind m k = none) : mapErase m k = m := by
  induction m with
  | nil => rfl
  | cons p rest ih =>
      by_cases hk : p.1 = k
      · simp [mapFind, hk] at h
      · simp [mapFind, hk] at h
        simp [mapErase, hk, ih h]

/-- Erasing a key that was just appended by `mapInsert` (absent before)
recovers the original map. -/
theorem mapErase_mapInsert_of_not_mem {K V : Type} [DecidableEq K]
    (m : List (K × V)) (k : K) (v : V) (h : mapFind m k = none) :
    mapErase (mapInsert m k v) k = m := by
  induction m with
  | nil => simp [mapInsert, mapErase]
  | cons p rest ih =>
      by_cases hk : p.1 = k
      · simp [mapFind, hk] at h
      · simp [mapFind, hk] at h
        simp [mapInsert, hk, mapErase, ih h]

theorem writeChainLock_best_mono (db : CChainLocksDb) (cl : CChainLockSig) :
    db.bestChainLockHeight ≤ (db.WriteChainLock cl).2.bestChainLockHeight := by
  unfold CChainLocksDb.WriteChainLock CChainLocksDb.WriteChainLock.writeBody
  dsimp only
  split
  · split
    · simp
    · dsimp only
      split
      · simp only
        omega
      · simp only
        omega
  · dsimp only
    split
    · simp only
      omega
    · simp only
      omega

theorem writeChainLock_reject (db : CChainLocksDb) (cl : CChainLockSig)
    (h1 : 0 < db.bestChainLockHeight) (h2 : cl.nHeight < db.bestChainLockHeight) :
    db.WriteChainLock cl = (false, db) := by
  unfold CChainLocksDb.WriteChainLock
  rw [if_pos ⟨le_of_lt h2, h1⟩, if_pos h2]

theorem writeChainLock_eq_cases (db : CChainLocksDb) (cl : CChainLockSig) :
    db.WriteChainLock cl = (false, db) ∨
      db.WriteChainLock cl = CChainLocksDb.WriteChainLock.writeBody db cl := by
  unfold CChainLocksDb.WriteChainLock
  split
  · split
    · exact Or.inl rfl
    · exact Or.inr rfl
  · exact Or.inr rfl

theorem writeBody_fst (db : CChainLocksDb) (cl : CChainLockSig) :
    (CChainLocksDb.WriteChainLock.writeBody db cl).1 = true := by
  simp only [CChainLocksDb.WriteChainLock.writeBody]

theorem writeBody_best (db : CChainLocksDb) (cl : CChainLockSig) :
    (CChainLocksDb.WriteChainLock.writeBody db cl).2.bestChainLockHeight =
      if db.bestChainLockHeight < cl.nHeight then cl.nHeight
      else db.bestChainLockHeight := by
  simp only [CChainLocksDb.WriteChainLock.writeBody]
  split
  · rfl
  · rfl

theorem writeChainLock_accept_best (db : CChainLocksDb) (cl : CChainLockSig)
    (hacc : (db.WriteChainLock cl).1 = true) :
    (db.WriteChainLock cl).2.bestChainLockHeight = db.bestChainLockHeight ∨
      ((db.WriteChainLock cl).2.bestChainLockHeight = cl.nHeight ∧
        db.bestChainLockHeight < cl.nHeight) := by
  rcases writeChainLock_eq_cases db cl with h | h
  · rw [h] at hacc
    simp at hacc
  · rw [h]
    rw [writeBody_best]
    by_cases hlt : db.bestChainLockHeight < cl.nHeight
    · right
      exact ⟨if_pos hlt, hlt⟩
    · left
      exact if_neg hlt

theorem writeChainLockSeq_mono (ls : List CChainLockSig) (db : CChainLocksDb) :
    db.bestChainLockHeight ≤ (writeChainLockSeq db ls).bestChainLockHeight := by
  induction ls generalizing db with
  | nil => exact le_refl _
  | cons cl rest ih =>
      exact le_trans (writeChainLock_best_mono db cl)
        (ih (db.WriteChainLock cl).2)

/-- **C2.** Across any sequence of `CChainLocksDb::WriteChainLock` calls the
best ChainLock height never decreases; when a best lock exists
(`bestChainLockHeight > 0`), a write whose height is strictly below the
current best returns `false` and leaves the database (both lock indexes and
the best height/hash) completely unchanged; and every accepted write either
keeps `bestChainLockHeight` equal or raises it to the new lock's height. -/
theorem C2_writeChainLock_monotonic :
    (∀ (db : CChainLocksDb) (cl : CChainLockSig),
        0 < db.bestChainLockHeight → cl.nHeight < db.bestChainLockHeight →
        db.WriteChainLock cl = (false, db)) ∧
    (∀ (db : CChainLocksDb) (cl : CChainLockSig),
        (db.WriteChainLock cl).1 = true →
        (db.WriteChainLock cl).2.bestChainLockHeight = db.bestChainLockHeight ∨
          ((db.WriteChainLock cl).2.bestChainLockHeight = cl.nHeight ∧
            db.bestChainLockHeight < cl.nHeight)) ∧
    (∀ (db : CChainLocksDb) (ls : List CChainLockSig),
        db.bestChainLockHeight ≤ (writeChainLockSeq db ls).bestChainLockHeight) :=
  ⟨writeChainLock_reject, writeChainLock_accept_best,
    fun db ls => writeChainLockSeq_mono ls db⟩

/-- Witness for C2 at concrete inputs: with best height 10, a lock at height 9
is rejected and the database is untouched; a lock at height 12 is accepted and
raises the best height to 12. -/
theorem C2_writeChainLock_monotonic_witness :
    ({ bestChainLockHeight := 10 : CChainLocksDb }.WriteChainLock
        ⟨9, 77, 0⟩ = (false, { bestChainLockHeight := 10 })) ∧
    (({ bestChainLockHeight := 10 : CChainLocksDb }.WriteChainLock
        ⟨12, 88, 0⟩).2.bestChainLockHeight = 12 ∧ (10 : Int) < 12) := by
  refine ⟨C2_writeChainLock_monotonic.1 _ _ (by decide) (by decide), ?_⟩
  rcases C2_writeChainLock_monotonic.2.1
      { bestChainLockHeight := 10 : CChainLocksDb } ⟨12, 88, 0⟩ (by decide) with h | h
  · exact absurd h (by decide)
  · exact h

/-- **C1.** `CChainLocksManager::CanReorg`: for two existing block indexes
whose last common ancestor is `F`, the reorg is allowed iff `F`'s height is at
least the best ChainLocked height; a fork point exactly at the best-locked
height is permitted, one strictly below it (in particular one below) is
refused; and when either index is missing or no common ancestor is found the
reorg is allowed. -/
theorem C1_canReorg_fork_height :
    (∀ (db : CChainLocksDb) (lca : CBlockIndex → CBlockIndex → Option CBlockIndex)
        (pNew pOld F : CBlockIndex), lca pNew pOld = some F →
        (CanReorg db lca (some pNew) (some pOld) = true ↔
          db.bestChainLockHeight ≤ F.nHeight)) ∧
    (∀ (db : CChainLocksDb) (lca : CBlockIndex → CBlockIndex → Option CBlockIndex)
        (pNew pOld F : CBlockIndex), lca pNew pOld = some F →
        F.nHeight = db.bestChainLockHeight →
        CanReorg db lca (some pNew) (some pOld) = true) ∧
    (∀ (db : CChainLocksDb) (lca : CBlockIndex → CBlockIndex → Option CBlockIndex)
        (pNew pOld F : CBlockIndex), lca pNew pOld = some F →
        F.nHeight = db.bestChainLockHeight - 1 →
        CanReorg db lca (some pNew) (some pOld) = false) ∧
    (∀ (db : CChainLocksDb) (lca : CBlockIndex → CBlockIndex → Option CBlockIndex)
        (pOld : Option CBlockIndex), CanReorg db lca none pOld = true) ∧
    (∀ (db : CChainLocksDb) (lca : CBlockIndex → CBlockIndex → Option CBlockIndex)
        (pNew : Option CBlockIndex), CanReorg db lca pNew none = true) ∧
    (∀ (db : CChainLocksDb) (lca : CBlockIndex → CBlockIndex → Option CBlockIndex)
        (pNew pOld : CBlockIndex), lca pNew pOld = none →
        CanReorg db lca (some pNew) (some pOld) = true) := by
  refine ⟨?_, ?_, ?_, ?_, ?_, ?_⟩
  · intro db lca pNew pOld F hF
    simp only [CanReorg, hF, CChainLocksDb.GetBestChainLockHeight]
    constructor
    · intro h
      by_contra hlt
      rw [if_pos (by omega)] at h
      exact Bool.false_ne_true h
    · intro h
      rw [if_neg (by omega)]
  · intro db lca pNew pOld F hF heq
    simp only [CanReorg, hF, CChainLocksDb.GetBestChainLockHeight]
    rw [if_neg (by omega)]
  · intro db lca pNew pOld F hF heq
    simp only [CanReorg, hF, CChainLocksDb.GetBestChainLockHeight]
    rw [if_pos (by omega)]
  · intro db lca pOld
    simp [CanReorg]
  · intro db lca pNew
    cases pNew <;> simp [CanReorg]
  · intro db lca pNew pOld hF
    simp [CanReorg, hF]

/-- Witness for C1 at concrete inputs: with best-locked height 1000, a fork
point at height 1000 permits the reorg, a fork point at height 999 refuses
it, and a missing index permits it. -/
theorem C1_canReorg_fork_height_witness :
    (CanReorg { bestChainLockHeight := 1000 } (fun _ _ => some ⟨1000⟩)
        (some ⟨1005⟩) (some ⟨1005⟩) = true) ∧
    (CanReorg { bestChainLockHeight := 1000 } (fun _ _ => some ⟨999⟩)
        (some ⟨1005⟩) (some ⟨1005⟩) = false) ∧
    (CanReorg { bestChainLockHeight := 1000 } (fun _ _ => some ⟨999⟩)
        none (some ⟨1005⟩) = true) :=
  ⟨C1_canReorg_fork_height.2.1 _ _ ⟨1005⟩ ⟨1005⟩ ⟨1000⟩ rfl (by decide),
   C1_canReorg_fork_height.2.2.1 _ _ ⟨1005⟩ ⟨1005⟩ ⟨999⟩ rfl (by decide),
   C1_canReorg_fork_height.2.2.2.1 { bestChainLockHeight := 1000 }
     (fun _ _ => some ⟨999⟩) (some ⟨1005⟩)⟩

theorem mem_mapInsert {K V : Type} [DecidableEq K]
    (m : List (K × V)) (k : K) (v : V) (p : K × V)
    (hp : p ∈ mapInsert m k v) : p ∈ m ∨ p = (k, v) := by
  induction m with
  | nil =>
      simp [mapInsert] at hp
      exact Or.inr hp
  | cons q rest ih =>
      by_cases hk : q.1 = k
      · simp [mapInsert, hk] at hp
        rcases hp with hp | hp
        · exact Or.inr hp
        · exact Or.inl (List.mem_cons_of_mem _ hp)
      · simp [mapInsert, hk] at hp
        rcases hp with hp | hp
        · exact Or.inl (by simp [hp])
        · rcases ih hp with h | h
          · exact Or.inl (List.mem_cons_of_mem _ h)
          · exact Or.inr h

theorem mapFind_foldInsert {K V : Type} [DecidableEq K]
    (inputs : List K) (m : List (K × V)) (v : V) (o : K) :
    mapFind (inputs.foldl (fun acc i => mapInsert acc i v) m) o =
      if o ∈ inputs then some v else mapFind m o := by
  induction inputs generalizing m with
  | nil => simp
  | cons i rest ih =>
      simp only [List.foldl_cons]
      rw [ih]
      by_cases hmem : o ∈ rest
      · simp [hmem]
      · by_cases hio : i = o
        · subst hio
          simp [hmem, mapFind_mapInsert_self]
        · simp [hmem, Ne.symm hio, mapFind_mapInsert_ne m i o v hio]

/-- The database produced by `CInstantSendDb::WriteLock`. -/
theorem writeLock_db_eq (db : CInstantSendDb) (islock : CInstantSendLock) :
    (db.WriteLock islock).2 =
      { locksById := mapInsert db.locksById islock islock
        txidToLockHash := mapInsert db.txidToLockHash islock.txid islock
        inputLocks := islock.inputs.foldl (fun m i => mapInsert m i islock)
          db.inputLocks } := rfl

/-- `WriteLock` preserves the database invariant provided the incoming lock's
txid and all of its inputs are fresh. -/
theorem writeLock_inv (db : CInstantSendDb) (islock : CInstantSendLock)
    (hinv : ISDbInv db)
    (hTxNone : mapFind db.txidToLockHash islock.txid = none)
    (hFresh : ∀ o ∈ islock.inputs, mapFind db.inputLocks o = none) :
    ISDbInv (db.WriteLock islock).2 := by
  obtain ⟨hA, hB, hC, hD, hE⟩ := hinv
  rw [writeLock_db_eq]
  have hstored' : ∀ L, storedLock
      { locksById := mapInsert db.locksById islock islock
        txidToLockHash := mapInsert db.txidToLockHash islock.txid islock
        inputLocks := islock.inputs.foldl (fun m i => mapInsert m i islock)
          db.inputLocks } L ↔ (L = islock ∨ storedLock db L) := by
    intro L
    unfold storedLock
    dsimp only
    by_cases hL : L = islock
    · subst hL
      rw [mapFind_mapInsert_self]
      simp
    · rw [mapFind_mapInsert_ne db.locksById islock L islock (Ne.symm hL)]
      simp [hL]
  refine ⟨?_, ?_, ?_, ?_, ?_⟩
  · intro p hp
    dsimp only at hp
    rcases mem_mapInsert _ _ _ p hp with h | h
    · exact hA p h
    · simp [h]
  · intro t h hfind
    dsimp only at hfind
    by_cases ht : t = islock.txid
    · subst ht
      rw [mapFind_mapInsert_self] at hfind
      cases hfind
      exact ⟨(hstored' islock).2 (Or.inl rfl), rfl⟩
    · rw [mapFind_mapInsert_ne _ _ _ _ (fun he => ht he.symm)] at hfind
      obtain ⟨hst, he⟩ := hB t h hfind
      exact ⟨(hstored' h).2 (Or.inr hst), he⟩
  · intro L hst
    dsimp only
    rcases (hstored' L).1 hst with hL | hL
    · subst hL
      rw [mapFind_mapInsert_self]
    · have hne : L.txid ≠ islock.txid := by
        intro heq
        have := hC L hL
        rw [heq, hTxNone] at this
        exact Option.noConfusion this
      rw [mapFind_mapInsert_ne _ _ _ _ (Ne.symm hne)]
      exact hC L hL
  · intro o h hfind
    dsimp only at hfind
    rw [mapFind_foldInsert] at hfind
    by_cases ho : o ∈ islock.inputs
    · rw [if_pos ho] at hfind
      cases hfind
      exact ⟨(hstored' islock).2 (Or.inl rfl), ho⟩
    · rw [if_neg ho] at hfind
      obtain ⟨hst, hmem⟩ := hD o h hfind
      exact ⟨(hstored' h).2 (Or.inr hst), hmem⟩
  · intro L o hst ho
    dsimp only
    rw [mapFind_foldInsert]
    rcases (hstored' L).1 hst with hL | hL
    · subst hL
      rw [if_pos ho]
    · by_cases hoin : o ∈ islock.inputs
      · have := hE L o hL ho
        rw [hFresh o hoin] at this
        exact Option.noConfusion this
      · rw [if_neg hoin]
        exact hE L o hL ho

/-- `ProcessInstantSendLock` preserves the database invariant. -/
theorem processISLock_preserves_inv (verify : CInstantSendLock → Bool)
    (db : CInstantSendDb) (islock : CInstantSendLock) (hinv : ISDbInv db) :
    ISDbInv (ProcessInstantSendLock verify db islock).2.2 := by
  unfold ProcessInstantSendLock
  by_cases hTx : db.IsTxLocked islock.txid
  · simp only [hTx, if_true]
    exact hinv
  · by_cases hVer : verify islock
    · by_cases hConf : islockHasConflict db islock
      · simp only [hTx, hVer, hConf, Bool.false_eq_true, if_false, not_true,
          if_neg, if_true, Bool.not_true, Bool.false_ne_true]
        exact hinv
      · -- accepted write
        obtain ⟨hA, hB, hC, hD, hE⟩ := hinv
        have hTxNone : mapFind db.txidToLockHash islock.txid = none := by
          unfold CInstantSendDb.IsTxLocked at hTx
          cases hfind : mapFind db.txidToLockHash islock.txid with
          | none => rfl
          | some h => simp [hfind] at hTx
        have hFresh : ∀ o ∈ islock.inputs, mapFind db.inputLocks o = none := by
          intro o ho
          cases hfind : mapFind db.inputLocks o with
          | none => rfl
          | some h =>
              obtain ⟨hstored, _⟩ := hD o h hfind
              have hTxEq : h.txid ≠ islock.txid := by
                intro heq
                have := hC h hstored
                rw [heq, hTxNone] at this
                exact Option.noConfusion this
              have hcf : islockHasConflict db islock = true := by
                unfold islockHasConflict
                rw [List.any_eq_true]
                refine ⟨o, ho, ?_⟩
                unfold storedLock at hstored
                simp [CInstantSendDb.IsInputLocked,
                  CInstantSendDb.GetLockForInput, CInstantSendDb.GetLock,
                  hfind, hstored, hTxEq]
              exact absurd hcf hConf
        simp only [hTx, hVer, hConf, Bool.false_eq_true, if_false, not_true,
          if_neg, if_true, Bool.not_true, Bool.false_ne_true, not_false_iff]
        exact writeLock_inv db islock ⟨hA, hB, hC, hD, hE⟩ hTxNone hFresh
    · simp only [hTx, hVer]
      simp only [Bool.false_eq_true, if_false, not_false_iff, if_true]
      exact hinv

theorem processISLockSeq_inv (verify : CInstantSendLock → Bool)
    (ls : List CInstantSendLock) (db : CInstantSendDb) (hinv : ISDbInv db) :
    ISDbInv (processISLockSeq verify db ls) := by
  induction ls generalizing db with
  | nil => exact hinv
  | cons l rest ih =>
      exact ih _ (processISLock_preserves_inv verify db l hinv)

theorem emptyISDb_inv : ISDbInv {} := by
  refine ⟨?_, ?_, ?_, ?_, ?_⟩ <;> intros <;> simp_all [mapFind, storedLock]

theorem islockConflict_rejected (verify : CInstantSendLock → Bool)
    (db : CInstantSendDb) (islock : CInstantSendLock) (hinv : ISDbInv db)
    (hTx : db.IsTxLocked islock.txid = false) (hVer : verify islock = true)
    (hconf : ∃ o ∈ islock.inputs, ∃ L, mapFind db.inputLocks o = some L ∧
      L.txid ≠ islock.txid) :
    ProcessInstantSendLock verify db islock =
      (false, some (100, "islock-conflict"), db) := by
  obtain ⟨o, ho, L, hfind, hne⟩ := hconf
  obtain ⟨hA, hB, hC, hD, hE⟩ := hinv
  have hstored : storedLock db L := (hD o L hfind).1
  have hcf : islockHasConflict db islock = true := by
    unfold islockHasConflict
    rw [List.any_eq_true]
    refine ⟨o, ho, ?_⟩
    unfold storedLock at hstored
    simp [CInstantSendDb.IsInputLocked, CInstantSendDb.GetLockForInput,
      CInstantSendDb.GetLock, hfind, hstored, hne]
  unfold ProcessInstantSendLock
  rw [hTx]
  simp only [Bool.false_eq_true, if_false, hVer, not_true, if_neg, hcf,
    if_true, Bool.not_true, Bool.false_ne_true, not_false_iff]

/-- **C3 (amended).** In the InstantSend lock database maintained through
`CInstantSendManager::ProcessInstantSendLock`: a received lock whose
signature verifies and whose txid is not already locked, but which contains
an input already indexed under a different txid, is rejected with DoS score
100 and reason `"islock-conflict"` leaving the database unchanged; and after
any sequence of processed locks starting from the empty database the outpoint
index maps each locked outpoint to exactly one stored lock (the lock
containing it), so every outpoint appears in at most one lock.  (The claim's
unconditional rejection fails when the incoming lock's txid is already
locked: such a lock is silently ignored, see the counterexample.) -/
theorem C3_islock_conflict :
    (∀ (verify : CInstantSendLock → Bool) (db : CInstantSendDb)
        (islock : CInstantSendLock), ISDbInv db →
        db.IsTxLocked islock.txid = false → verify islock = true →
        (∃ o ∈ islock.inputs, ∃ L, mapFind db.inputLocks o = some L ∧
          L.txid ≠ islock.txid) →
        ProcessInstantSendLock verify db islock =
          (false, some (100, "islock-conflict"), db)) ∧
    (∀ (verify : CInstantSendLock → Bool) (ls : List CInstantSendLock),
        (∀ o L, mapFind (processISLockSeq verify {} ls).inputLocks o = some L →
          storedLock (processISLockSeq verify {} ls) L ∧ o ∈ L.inputs) ∧
        (∀ o L1 L2, storedLock (processISLockSeq verify {} ls) L1 →
          storedLock (processISLockSeq verify {} ls) L2 →
          o ∈ L1.inputs → o ∈ L2.inputs → L1 = L2)) := by
  constructor
  · exact islockConflict_rejected
  · intro verify ls
    have hinv := processISLockSeq_inv verify ls {} emptyISDb_inv
    obtain ⟨hA, hB, hC, hD, hE⟩ := hinv
    refine ⟨hD, ?_⟩
    intro o L1 L2 h1 h2 ho1 ho2
    have e1 := hE L1 o h1 ho1
    have e2 := hE L2 o h2 ho2
    rw [e1] at e2
    exact (Option.some.injEq _ _ ▸ e2)

/-- Witness for C3 at concrete inputs: after accepting a lock for txid 2 on
outpoint (2,0), a verifying lock for the fresh txid 3 spending the same
outpoint is rejected with DoS 100 / `"islock-conflict"`, and the two-lock
database maps each outpoint to exactly one lock. -/
theorem C3_islock_conflict_witness :
    (ProcessInstantSendLock (fun _ => true)
        (processISLockSeq (fun _ => true) {} [⟨[⟨2, 0⟩], 2, 0, 0⟩])
        ⟨[⟨2, 0⟩], 3, 0, 0⟩ =
      (false, some (100, "islock-conflict"),
        processISLockSeq (fun _ => true) {} [⟨[⟨2, 0⟩], 2, 0, 0⟩])) ∧
    (∀ o L1 L2,
      storedLock (processISLockSeq (fun _ => true) {} [⟨[⟨2, 0⟩], 2, 0, 0⟩]) L1 →
      storedLock (processISLockSeq (fun _ => true) {} [⟨[⟨2, 0⟩], 2, 0, 0⟩]) L2 →
      o ∈ L1.inputs → o ∈ L2.inputs → L1 = L2) := by
  constructor
  · refine C3_islock_conflict.1 (fun _ => true) _ _ ?_ (by decide) rfl ?_
    · exact processISLockSeq_inv _ _ {} emptyISDb_inv
    · refine ⟨⟨2, 0⟩, by decide, ⟨[⟨2, 0⟩], 2, 0, 0⟩, by decide, by decide⟩
  · exact (C3_islock_conflict.2 (fun _ => true) [⟨[⟨2, 0⟩], 2, 0, 0⟩]).2

/-- **C3 counterexample.** The claim "a received lock containing an input
already indexed under a different txid is rejected with DoS score 100 and
reason islock-conflict" is false as stated: when the incoming lock's txid
already has a stored lock, `ProcessInstantSendLock` returns `true` with no
DoS report even though the lock spends an outpoint indexed under a different
txid.  Concretely: after accepting lock A = ([(1,0)], txid 1) and lock
C = ([(2,0)], txid 2), the lock B = ([(2,0)], txid 1) contains input (2,0)
indexed under txid 2 ≠ 1, yet processing B succeeds with no rejection. -/
theorem C3_counterexample :
    (mapFind (processISLockSeq (fun _ => true) {}
        [⟨[⟨1, 0⟩], 1, 0, 0⟩, ⟨[⟨2, 0⟩], 2, 0, 0⟩]).inputLocks ⟨2, 0⟩ =
      some ⟨[⟨2, 0⟩], 2, 0, 0⟩) ∧
    ((⟨2, 0⟩ : COutPoint) ∈ (⟨[⟨2, 0⟩], 1, 0, 0⟩ : CInstantSendLock).inputs) ∧
    ((2 : Nat) ≠ 1) ∧
    (ProcessInstantSendLock (fun _ => true)
        (processISLockSeq (fun _ => true) {}
          [⟨[⟨1, 0⟩], 1, 0, 0⟩, ⟨[⟨2, 0⟩], 2, 0, 0⟩])
        ⟨[⟨2, 0⟩], 1, 0, 0⟩ =
      (true, none,
        processISLockSeq (fun _ => true) {}
          [⟨[⟨1, 0⟩], 1, 0, 0⟩, ⟨[⟨2, 0⟩], 2, 0, 0⟩])) := by
  refine ⟨?_, ?_, ?_, ?_⟩ <;> decide

/-- **C8 (amended).** `CInstantSendManager::CreateRequestId` hashes
`"islock_request"` followed by the outpoints in ascending sorted order, so it
is invariant under permutation of the input list and always yields a sorted
digest stream.  `CInstantSendLock::GetRequestId`, however, hashes the stored
inputs in stored order: it coincides with `CreateRequestId` over the same
inputs exactly when the stored inputs are already sorted ascending.  (The
claim's "equals CreateRequestId over the same inputs in any order" fails for
unsorted stored inputs, see the counterexample.) -/
theorem C8_requestid_sorted :
    (∀ l1 l2 : List COutPoint, l1.Perm l2 →
      CreateRequestId l1 = CreateRequestId l2) ∧
    (∀ inputs : List COutPoint, List.Sorted opLe (CreateRequestId inputs)) ∧
    (∀ isl : CInstantSendLock,
      isl.GetRequestId = CreateRequestId isl.inputs ↔
        List.Sorted opLe isl.inputs) := by
  refine ⟨?_, ?_, ?_⟩
  · intro l1 l2 hperm
    exact List.eq_of_perm_of_sorted
      ((List.perm_insertionSort opLe l1).trans
        (hperm.trans (List.perm_insertionSort opLe l2).symm))
      (List.sorted_insertionSort opLe l1)
      (List.sorted_insertionSort opLe l2)
  · intro inputs
    exact List.sorted_insertionSort opLe inputs
  · intro isl
    constructor
    · intro h
      unfold CInstantSendLock.GetRequestId at h
      rw [h]
      exact List.sorted_insertionSort opLe isl.inputs
    · intro h
      unfold CInstantSendLock.GetRequestId CreateRequestId
      exact (List.Sorted.insertionSort_eq h).symm

/-- Witness for C8 at concrete inputs: the two orderings of
{(1,0), (2,7)} produce the same `CreateRequestId`, and a lock whose stored
inputs are sorted has `GetRequestId = CreateRequestId`. -/
theorem C8_requestid_sorted_witness :
    (CreateRequestId [⟨2, 7⟩, ⟨1, 0⟩] = CreateRequestId [⟨1, 0⟩, ⟨2, 7⟩]) ∧
    (CInstantSendLock.GetRequestId ⟨[⟨1, 0⟩, ⟨2, 7⟩], 5, 6, 7⟩ =
      CreateRequestId [⟨1, 0⟩, ⟨2, 7⟩]) :=
  ⟨C8_requestid_sorted.1 [⟨2, 7⟩, ⟨1, 0⟩] [⟨1, 0⟩, ⟨2, 7⟩] (by decide),
   (C8_requestid_sorted.2.2 ⟨[⟨1, 0⟩, ⟨2, 7⟩], 5, 6, 7⟩).2 (by
      constructor
      · intro b hb
        simp at hb
        subst hb
        decide
      · decide)⟩

/-- **C8 counterexample.** `CInstantSendLock::GetRequestId` does **not** sort
the stored inputs before hashing, so for a lock whose inputs are stored in
descending order the lock's request id differs from
`CInstantSendManager::CreateRequestId` over the same inputs: the two hash
input streams differ (unsorted vs sorted), hence the digests differ. -/
theorem C8_counterexample :
    CInstantSendLock.GetRequestId ⟨[⟨2, 7⟩, ⟨1, 0⟩], 5, 6, 7⟩ ≠
      CreateRequestId [⟨2, 7⟩, ⟨1, 0⟩] := by
  decide

/-- **C10.** `CDeterministicMNList::UpdateMN` and
`CDeterministicMNList::RemoveMN` on a `proTxHash` with no entry are silent
no-ops: the returned list equals the input list in every component (entry
map, unique-property index, counters and header fields); no error is
signalled. -/
theorem C10_missing_entry_noop :
    ∀ (l : CDeterministicMNList) (proTxHash : Nat)
      (newState : CDeterministicMNState), l.GetMN proTxHash = none →
      l.UpdateMN proTxHash newState = l ∧ l.RemoveMN proTxHash = l := by
  intro l proTxHash newState hmiss
  unfold CDeterministicMNList.UpdateMN CDeterministicMNList.RemoveMN
  rw [hmiss]
  exact ⟨rfl, rfl⟩

/-- Witness for C10 at concrete inputs: a one-entry list queried at an absent
`proTxHash` is returned unchanged by both operations. -/
theorem C10_missing_entry_noop_witness :
    c10SampleList.UpdateMN 9 {} = c10SampleList ∧
      c10SampleList.RemoveMN 9 = c10SampleList :=
  C10_missing_entry_noop c10SampleList 9 {} (by decide)

open CDeterministicMNList in
/-- The `GetMNPayee` fold over a strictly `proTxHash`-sorted candidate list
starting from current winner `w` returns the first candidate attaining the
minimal score: the result's score is minimal, it only differs from `w` by a
strictly smaller score, and on score ties it has the smallest `proTxHash`. -/
theorem payeeFold_spec (scoreH : Nat → Nat → Nat) (B : Nat) :
    ∀ (valid : List CDeterministicMN) (w : CDeterministicMN),
      (w :: valid).Pairwise (fun a b => a.proTxHash < b.proTxHash) →
      ∃ w', valid.foldl (payeeStep scoreH B) (some w) = some w' ∧
        w' ∈ w :: valid ∧
        (∀ m ∈ w :: valid, scoreH w'.proTxHash B ≤ scoreH m.proTxHash B) ∧
        (w' = w ∨ scoreH w'.proTxHash B < scoreH w.proTxHash B) ∧
        (∀ m ∈ w :: valid, scoreH m.proTxHash B = scoreH w'.proTxHash B →
          w'.proTxHash ≤ m.proTxHash) := by
  intro valid
  induction valid with
  | nil =>
      intro w _
      refine ⟨w, rfl, List.mem_singleton.2 rfl, ?_, Or.inl rfl, ?_⟩
      · intro m hm
        rw [List.mem_singleton] at hm
        subst hm
        exact le_refl _
      · intro m hm _
        rw [List.mem_singleton] at hm
        subst hm
        exact le_refl _
  | cons mn rest ih =>
      intro w hsort
      rw [List.foldl_cons]
      by_cases hc : scoreH mn.proTxHash B < scoreH w.proTxHash B
      · -- the candidate takes over as winner
        have hstep : payeeStep scoreH B (some w) mn = some mn := by
          simp only [payeeStep]
          rw [if_pos hc]
        rw [hstep]
        obtain ⟨w', heq, hmem, hmin, hdisj, htie⟩ := ih mn hsort.of_cons
        refine ⟨w', heq, ?_, ?_, ?_⟩
        · rcases List.mem_cons.1 hmem with h | h
          · rw [h]
            exact List.mem_cons_of_mem _ (List.mem_cons_self _ _)
          · exact List.mem_cons_of_mem _ (List.mem_cons_of_mem _ h)
        · intro m hm
          rcases List.mem_cons.1 hm with hmw | hm'
          · subst hmw
            exact le_of_lt (lt_of_le_of_lt (hmin mn (List.mem_cons_self _ _)) hc)
          · exact hmin m hm'
        · constructor
          · right
            rcases hdisj with h | h
            · rw [h]
              exact hc
            · exact lt_trans h hc
          · intro m hm hscore
            rcases List.mem_cons.1 hm with hmw | hm'
            · subst hmw
              have hlt : scoreH w'.proTxHash B < scoreH m.proTxHash B :=
                lt_of_le_of_lt (hmin mn (List.mem_cons_self _ _)) hc
              rw [hscore] at hlt
              exact absurd hlt (lt_irrefl _)
            · exact htie m hm' hscore
      · -- the current winner is kept
        have hstep : payeeStep scoreH B (some w) mn = some w := by
          simp only [payeeStep]
          rw [if_neg hc]
        rw [hstep]
        have hle : scoreH w.proTxHash B ≤ scoreH mn.proTxHash B := not_lt.1 hc
        have hsort' : (w :: rest).Pairwise (fun a b => a.proTxHash < b.proTxHash) := by
          refine List.Pairwise.sublist ?_ hsort
          exact List.cons_sublist_cons.2 (List.sublist_cons_self mn rest)
        obtain ⟨w', heq, hmem, hmin, hdisj, htie⟩ := ih w hsort'
        have hwmn : w.proTxHash < mn.proTxHash :=
          (List.pairwise_cons.1 hsort).1 mn (List.mem_cons_self _ _)
        refine ⟨w', heq, ?_, ?_, ?_⟩
        · rcases List.mem_cons.1 hmem with h | h
          · exact List.mem_cons.2 (Or.inl h)
          · exact List.mem_cons_of_mem _ (List.mem_cons_of_mem _ h)
        · intro m hm
          rcases List.mem_cons.1 hm with hmw | hm'
          · subst hmw
            exact hmin m (List.mem_cons_self _ _)
          · rcases List.mem_cons.1 hm' with hmmn | hmr
            · subst hmmn
              exact le_trans (hmin w (List.mem_cons_self _ _)) hle
            · exact hmin m (List.mem_cons_of_mem _ hmr)
        · refine ⟨hdisj, ?_⟩
          intro m hm hscore
          rcases List.mem_cons.1 hm with hmw | hm'
          · subst hmw
            exact htie m (List.mem_cons_self _ _) hscore
          · rcases List.mem_cons.1 hm' with hmmn | hmr
            · subst hmmn
              rcases hdisj with hww | hww
              · subst hww
                exact le_of_lt hwmn
              · have : scoreH w.proTxHash B ≤ scoreH w'.proTxHash B := by
                  rw [← hscore]
                  exact hle
                exact absurd (lt_of_le_of_lt this hww) (lt_irrefl _)
            · exact htie m (List.mem_cons_of_mem _ hmr) hscore

theorem mem_validMNs (l : CDeterministicMNList) (x : CDeterministicMN) :
    x ∈ l.GetValidMNsForPayment ↔ x ∈ l.mnMap ∧ x.IsValid = true := by
  unfold CDeterministicMNList.GetValidMNsForPayment
  exact List.mem_filter

open CDeterministicMNList in
/-- **C6.** For every masternode list whose entry map is iterated in
strictly increasing `proTxHash` order (the `std::map` invariant) and every
block hash `B`: `GetMNPayee` returns `none` exactly when no valid entry
exists, and otherwise returns a valid entry of the list whose score
`H(proTxHash | B)` is minimal among all valid entries, where among valid
entries of equal minimal score the one with the smallest `proTxHash` wins. -/
theorem C6_getMNPayee_argmin (scoreH : Nat → Nat → Nat)
    (l : CDeterministicMNList) (B : Nat)
    (hsort : l.mnMap.Pairwise (fun a b => a.proTxHash < b.proTxHash)) :
    (l.GetMNPayee scoreH B = none ↔ ∀ mn ∈ l.mnMap, mn.IsValid = false) ∧
    (∀ w, l.GetMNPayee scoreH B = some w →
      w ∈ l.mnMap ∧ w.IsValid = true ∧
      (∀ mn ∈ l.mnMap, mn.IsValid = true →
        scoreH w.proTxHash B ≤ scoreH mn.proTxHash B) ∧
      (∀ mn ∈ l.mnMap, mn.IsValid = true →
        scoreH mn.proTxHash B = scoreH w.proTxHash B →
        w.proTxHash ≤ mn.proTxHash)) := by
  have hpayee : l.GetMNPayee scoreH B =
      (if l.GetValidMNsForPayment = [] then none
       else l.GetValidMNsForPayment.foldl (payeeStep scoreH B) none) := rfl
  cases hv : l.GetValidMNsForPayment with
  | nil =>
      rw [hpayee, hv, if_pos rfl]
      constructor
      · constructor
        · intro _ mn hm
          by_contra hval
          have hmemf : mn ∈ l.GetValidMNsForPayment :=
            (mem_validMNs l mn).2 ⟨hm, by
              cases hb : mn.IsValid with
              | false => exact absurd hb hval
              | true => rfl⟩
          rw [hv] at hmemf
          exact absurd hmemf (List.not_mem_nil mn)
        · intro _
          rfl
      · intro w hw
        exact absurd hw (by simp)
  | cons v vs =>
      have hsf : (v :: vs).Pairwise (fun a b => a.proTxHash < b.proTxHash) := by
        rw [← hv]
        unfold CDeterministicMNList.GetValidMNsForPayment
        exact hsort.sublist (List.filter_sublist _)
      obtain ⟨w', heq, hmem, hmin, _, htie⟩ := payeeFold_spec scoreH B vs v hsf
      have h1 : payeeStep scoreH B none v = some v := rfl
      rw [hpayee, hv, if_neg (List.cons_ne_nil v vs), List.foldl_cons, h1, heq]
      have hw'valid : w' ∈ l.mnMap ∧ w'.IsValid = true := by
        refine (mem_validMNs l w').1 ?_
        rw [hv]
        exact hmem
      constructor
      · constructor
        · intro h
          exact absurd h (by simp)
        · intro hall
          have hvv : v ∈ l.mnMap ∧ v.IsValid = true := by
            refine (mem_validMNs l v).1 ?_
            rw [hv]
            exact List.mem_cons_self _ _
          rw [hall v hvv.1] at hvv
          exact absurd hvv.2 (by simp)
      · intro w hw
        have hww : w' = w := Option.some.inj hw
        subst hww
        refine ⟨hw'valid.1, hw'valid.2, ?_, ?_⟩
        · intro mn hm hval
          refine hmin mn ?_
          rw [← hv]
          exact (mem_validMNs l mn).2 ⟨hm, hval⟩
        · intro mn hm hval hscore
          refine htie mn ?_ hscore
          rw [← hv]
          exact (mem_validMNs l mn).2 ⟨hm, hval⟩

/-- Witness for C6 at concrete inputs: the argmin/tie-break characterisation
applied to a concrete sorted three-entry list with a score tie. -/
theorem C6_getMNPayee_argmin_witness :
    (c6SampleList.GetMNPayee c6Score 0 = none ↔
      ∀ mn ∈ c6SampleList.mnMap, mn.IsValid = false) ∧
    (∀ w, c6SampleList.GetMNPayee c6Score 0 = some w →
      w ∈ c6SampleList.mnMap ∧ w.IsValid = true ∧
      (∀ mn ∈ c6SampleList.mnMap, mn.IsValid = true →
        c6Score w.proTxHash 0 ≤ c6Score mn.proTxHash 0) ∧
      (∀ mn ∈ c6SampleList.mnMap, mn.IsValid = true →
        c6Score mn.proTxHash 0 = c6Score w.proTxHash 0 →
        w.proTxHash ≤ mn.proTxHash)) :=
  C6_getMNPayee_argmin c6Score c6SampleList 0 (by decide)

/-- **C5 (amended).** `CBLSSignature::RecoverThresholdSignature` returns an
invalid (null) signature when fewer than `threshold` shares are supplied or
the share and id counts differ; otherwise it returns the plain equal-weight
aggregation (group sum) of the shares — it does **not** perform Lagrange
interpolation over the BLS scalar field (see the counterexample, and the
source comment "Simplified: aggregate shares with equal weight"). -/
theorem C5_recover_is_plain_aggregation :
    (∀ (G I : Type) [AddCommMonoid G] (shares : List (Option G))
        (ids : List I) (t : Nat),
        shares.length < t ∨ shares.length ≠ ids.length →
        RecoverThresholdSignature shares ids t = none) ∧
    (∀ (G I : Type) [AddCommMonoid G] (shares : List (Option G))
        (ids : List I) (t : Nat),
        ¬ shares.length < t → shares.length = ids.length →
        RecoverThresholdSignature shares ids t = AggregateSignatures shares) ∧
    (∀ (G : Type) [AddCommMonoid G] (shares : List (Option G)),
        shares ≠ [] → shares.all Option.isSome = true →
        AggregateSignatures shares = some ((shares.filterMap id).sum)) := by
  refine ⟨?_, ?_, ?_⟩
  · intro G I _ shares ids t h
    unfold RecoverThresholdSignature
    rw [if_pos h]
  · intro G I _ shares ids t h1 h2
    unfold RecoverThresholdSignature
    rw [if_neg (by push_neg; exact ⟨not_lt.1 h1, h2⟩)]
  · intro G _ shares hne hall
    match shares with
    | [] => exact absurd rfl hne
    | [s] =>
        simp only [List.all_cons, List.all_nil, Bool.and_true] at hall
        obtain ⟨v, hv⟩ := Option.isSome_iff_exists.1 hall
        subst hv
        simp [AggregateSignatures]
    | a :: b :: rest =>
        simp only [AggregateSignatures]
        rw [if_pos hall]

/-- Witness for C5 at concrete inputs (scalar representation over `ℚ`): two
shares with threshold three give an invalid signature; two valid shares
`1, 2` with matching ids and threshold two recover `some 3`, the plain sum. -/
theorem C5_recover_is_plain_aggregation_witness :
    (RecoverThresholdSignature (G := ℚ) (I := ℚ) [some 1, some 2] [1, 2] 3 =
      none) ∧
    (RecoverThresholdSignature (G := ℚ) (I := ℚ) [some 1, some 2] [1, 2] 2 =
      some 3) := by
  constructor
  · exact C5_recover_is_plain_aggregation.1 ℚ ℚ [some 1, some 2] [1, 2] 3
      (by norm_num)
  · rw [C5_recover_is_plain_aggregation.2.1 ℚ ℚ [some 1, some 2] [1, 2] 2
      (by norm_num) (by norm_num)]
    rw [C5_recover_is_plain_aggregation.2.2 ℚ [some 1, some 2]
      (by simp) (by simp)]
    norm_num [List.filterMap]

/-- **C5 counterexample.** The recovery is not Lagrange interpolation: for
shares `1, 2` at member ids `1, 2` with threshold 2 (distinct ids, exactly
threshold shares), the code aggregates to `1 + 2 = 3` while Lagrange
interpolation at zero gives `2·1 + (−1)·2 = 0`; the two disagree. -/
theorem C5_counterexample :
    RecoverThresholdSignature (G := ℚ) [some 1, some 2] [(1 : ℚ), 2] 2 =
        some 3 ∧
    RecoverThresholdSignatureSpec [some (1 : ℚ), some 2] [(1 : ℚ), 2] 2 =
        some 0 ∧
    RecoverThresholdSignature (G := ℚ) [some 1, some 2] [(1 : ℚ), 2] 2 ≠
      RecoverThresholdSignatureSpec [some (1 : ℚ), some 2] [(1 : ℚ), 2] 2 := by
  have h1 : RecoverThresholdSignature (G := ℚ) [some 1, some 2]
      [(1 : ℚ), 2] 2 = some 3 := by
    unfold RecoverThresholdSignature AggregateSignatures
    norm_num [List.filterMap]
  have h2 : RecoverThresholdSignatureSpec [some (1 : ℚ), some 2]
      [(1 : ℚ), 2] 2 = some 0 := by
    unfold RecoverThresholdSignatureSpec lagrangeCoeff
    norm_num [List.zip, List.zipWith, List.filterMap, List.filter]
  refine ⟨h1, h2, ?_⟩
  rw [h1, h2]
  norm_num

theorem collectMemberShares_length_le (q : CQuorum) (t : Nat) :
    ∀ (rest acc : List (Nat × Nat)),
      (collectMemberShares q t rest acc).length ≤
        acc.length + (rest.filter (fun p => q.IsMember p.1)).length := by
  intro rest
  induction rest with
  | nil =>
      intro acc
      simp [collectMemberShares]
  | cons p rest ih =>
      intro acc
      obtain ⟨proTxHash, sig⟩ := p
      by_cases hm : q.IsMember proTxHash
      · simp only [collectMemberShares, hm, if_true, List.filter_cons, hm]
        by_cases ht : t ≤ (acc ++ [(proTxHash, sig)]).length
        · rw [if_pos ht]
          simp only [List.length_append, List.length_cons, List.length_nil]
          omega
        · rw [if_neg ht]
          have := ih (acc ++ [(proTxHash, sig)])
          simp only [List.length_append, List.length_cons, List.length_nil]
            at this ⊢
          omega
      · simp only [collectMemberShares, hm, if_false, List.filter_cons,
          Bool.false_eq_true]
        have := ih acc
        omega

theorem natDiv_add99_eq_ceil (a : Nat) :
    (((a + 99) / 100 : Nat) : ℤ) = ⌈(a : ℚ) / 100⌉ := by
  have hdm := Nat.div_add_mod (a + 99) 100
  have hml : (a + 99) % 100 < 100 := Nat.mod_lt _ (by norm_num)
  have h1 : a ≤ 100 * ((a + 99) / 100) := by omega
  have h2 : 100 * ((a + 99) / 100) < a + 100 := by omega
  have h100 : (0 : ℚ) < 100 := by norm_num
  rw [eq_comm, Int.ceil_eq_iff]
  push_cast
  constructor
  · rw [lt_div_iff₀ h100]
    qify at h2
    linarith
  · rw [div_le_iff₀ h100]
    qify at h1
    linarith

/-- **C7 (amended).** `CQuorum::GetThreshold` computes exactly the ceiling
`⌈validMemberCount · T / 100⌉` as `(validMemberCount · T + 99) / 100` in
integer arithmetic; and whenever no signature for the session id has already
been recovered and cached, `CSigningManager::TryRecoverSignature` returns
`false` (recovers nothing) if the number of accumulated shares from members
of the designated quorum is below that threshold.  (The claim's
unconditional "whenever" fails on the memoized path: a previously recovered
and cached signature is returned regardless of the current share count, see
the counterexample.) -/
theorem C7_tryRecover_threshold :
    (∀ q : CQuorum, (q.GetThreshold : ℤ) =
      ⌈((q.validMemberCount * (GetLLMQParams q.llmqType).threshold : ℕ) : ℚ) /
        100⌉) ∧
    (∀ (recover : List Nat → List Nat → Nat → Option Nat)
        (st : CSigningManager) (llmqType : LLMQType) (id msgHash : Nat)
        (quorum : CQuorum),
        mapFind st.recoveredSigs id = none →
        memberShareCount st quorum id < quorum.GetThreshold →
        TryRecoverSignature (some quorum) recover st llmqType id msgHash =
          none) := by
  constructor
  · intro q
    unfold CQuorum.GetThreshold
    exact natDiv_add99_eq_ceil _
  · intro recover st llmqType id msgHash quorum hrec hcount
    unfold TryRecoverSignature
    rw [hrec]
    cases hsh : mapFind st.sigShares id with
    | none => rfl
    | some shares =>
        have hcount' : (shares.filter (fun p => quorum.IsMember p.1)).length <
            quorum.GetThreshold := by
          unfold memberShareCount at hcount
          rw [hsh] at hcount
          exact hcount
        simp only
        by_cases hlen : shares.length < quorum.GetThreshold
        · rw [if_pos hlen]
        · rw [if_neg hlen]
          have hcol := collectMemberShares_length_le quorum
            quorum.GetThreshold shares []
          simp only [List.length_nil, Nat.zero_add] at hcol
          rw [if_pos (lt_of_le_of_lt hcol hcount')]

/-- Witness for C7 at concrete inputs: the 5-member 60% quorum has threshold
`3 = ⌈300/100⌉`, and with only one member share accumulated for session 7
`TryRecoverSignature` returns nothing. -/
theorem C7_tryRecover_threshold_witness :
    ((c7Quorum.GetThreshold : ℤ) =
      ⌈((c7Quorum.validMemberCount *
          (GetLLMQParams c7Quorum.llmqType).threshold : ℕ) : ℚ) / 100⌉) ∧
    TryRecoverSignature (some c7Quorum) (fun _ _ _ => none) c7State
      .LLMQ_50_60 7 0 = none :=
  ⟨C7_tryRecover_threshold.1 c7Quorum,
   C7_tryRecover_threshold.2 (fun _ _ _ => none) c7State .LLMQ_50_60 7 0
     c7Quorum (by decide) (by decide)⟩

/-- **C7 counterexample.** The claim's unconditional "returns false whenever
member shares are below the threshold" is false: with zero accumulated
member shares (0 < threshold 3) but a previously cached recovered signature
for session 7, `TryRecoverSignature` returns that signature (C++ `true`),
not `false`. -/
theorem C7_counterexample :
    memberShareCount c7StateCached c7Quorum 7 < c7Quorum.GetThreshold ∧
    TryRecoverSignature (some c7Quorum) (fun _ _ _ => none) c7StateCached
      .LLMQ_50_60 7 0 = some c7RecSig := by
  constructor
  · decide
  · decide

theorem setErase_setInsert (l : List Nat) (x : Nat) (hx : x ∉ l) :
    setErase (setInsert l x) x = l := by
  induction l with
  | nil => simp [setInsert, setErase]
  | cons y rest ih =>
      have hxy : x ≠ y := fun h => hx (h ▸ List.mem_cons_self _ _)
      have hxr : x ∉ rest := fun h => hx (List.mem_cons_of_mem _ h)
      by_cases hlt : x < y
      · simp [setInsert, hlt, setErase]
      · simp only [setInsert, hlt, if_false, hxy, if_neg]
        simp only [setErase, Ne.symm hxy, if_neg, if_false]
        rw [ih hxr]

/-- Re-inserting a key collapses the earlier insert. -/
theorem mapInsert_mapInsert {K V : Type} [DecidableEq K]
    (m : List (K × V)) (k : K) (v v' : V) :
    mapInsert (mapInsert m k v') k v = mapInsert m k v := by
  induction m with
  | nil => simp [mapInsert]
  | cons p rest ih =>
      by_cases hk : p.1 = k
      · simp [mapInsert, hk]
      · simp [mapInsert, hk, ih]

/-- **C9 (amended).** For an order book and an offer whose hash is not
present: `AddOffer` then `RemoveOffer` always restores the offers map
bit-for-bit, and restores the pair-index map bit-for-bit **provided the
offer's trading-pair key already has a bucket** (not containing the fresh
hash).  When the pair key had no bucket, removal leaves behind an empty
bucket created by the add (`operator[]`), so the pair index does not return
to its previous value — see the counterexample. -/
theorem C9_add_remove_roundtrip :
    ∀ (book : CAtomicSwapOrderBook) (offer : CAtomicSwapOffer),
      mapFind book.offers offer.offerHash = none →
      ((book.AddOffer offer).1 = true) ∧
      (((book.AddOffer offer).2.RemoveOffer offer.offerHash).1 = true) ∧
      (((book.AddOffer offer).2.RemoveOffer offer.offerHash).2.offers =
        book.offers) ∧
      (∀ bucket,
        mapFind book.offersByPair
          (GetTradingPairKey offer.makerAssetName offer.takerAssetName) =
            some bucket →
        offer.offerHash ∉ bucket →
        ((book.AddOffer offer).2.RemoveOffer offer.offerHash).2 = book) := by
  intro book offer hfresh
  obtain ⟨offersMap, pairMap⟩ := book
  simp only at hfresh
  have hadd : CAtomicSwapOrderBook.AddOffer ⟨offersMap, pairMap⟩ offer =
      (true,
        { offers := mapInsert offersMap offer.offerHash offer
          offersByPair := mapInsert pairMap
            (GetTradingPairKey offer.makerAssetName offer.takerAssetName)
            (setInsert (lookupBucket pairMap
              (GetTradingPairKey offer.makerAssetName offer.takerAssetName))
              offer.offerHash) }) := by
    unfold CAtomicSwapOrderBook.AddOffer
    rw [if_neg (by simp [hfresh])]
  have hfound : mapFind (mapInsert offersMap offer.offerHash offer)
      offer.offerHash = some offer := mapFind_mapInsert_self _ _ _
  have hrem : (CAtomicSwapOrderBook.RemoveOffer
      (CAtomicSwapOrderBook.AddOffer ⟨offersMap, pairMap⟩ offer).2
      offer.offerHash) =
      (true,
        { offers := mapErase (mapInsert offersMap offer.offerHash offer)
            offer.offerHash
          offersByPair :=
            mapInsert
              (mapInsert pairMap
                (GetTradingPairKey offer.makerAssetName offer.takerAssetName)
                (setInsert (lookupBucket pairMap
                  (GetTradingPairKey offer.makerAssetName
                    offer.takerAssetName)) offer.offerHash))
              (GetTradingPairKey offer.makerAssetName offer.takerAssetName)
              (setErase
                (lookupBucket
                  (mapInsert pairMap
                    (GetTradingPairKey offer.makerAssetName
                      offer.takerAssetName)
                    (setInsert (lookupBucket pairMap
                      (GetTradingPairKey offer.makerAssetName
                        offer.takerAssetName)) offer.offerHash))
                  (GetTradingPairKey offer.makerAssetName
                    offer.takerAssetName))
                offer.offerHash) }) := by
    rw [hadd]
    unfold CAtomicSwapOrderBook.RemoveOffer
    simp only [hfound]
  refine ⟨by rw [hadd], by rw [hrem], ?_, ?_⟩
  · rw [hrem]
    simp only
    exact mapErase_mapInsert_of_not_mem _ _ _ hfresh
  · intro bucket hbucket hnotmem
    rw [hrem]
    simp only at hbucket ⊢
    have hlb : lookupBucket pairMap
        (GetTradingPairKey offer.makerAssetName offer.takerAssetName) =
        bucket := by
      unfold lookupBucket
      rw [hbucket]
      rfl
    have hlb2 : lookupBucket
        (mapInsert pairMap
          (GetTradingPairKey offer.makerAssetName offer.takerAssetName)
          (setInsert (lookupBucket pairMap
            (GetTradingPairKey offer.makerAssetName offer.takerAssetName))
            offer.offerHash))
        (GetTradingPairKey offer.makerAssetName offer.takerAssetName) =
        setInsert bucket offer.offerHash := by
      unfold lookupBucket
      rw [mapFind_mapInsert_self, hbucket]
      rfl
    rw [hlb2, hlb, setErase_setInsert bucket offer.offerHash hnotmem,
      mapInsert_mapInsert, mapInsert_self_eq pairMap _ bucket hbucket,
      mapErase_mapInsert_of_not_mem _ _ _ hfresh]

/-- Witness for C9 at concrete inputs: adding an offer on GOLD/SILVER to a
book that already has a (different-offer) GOLD:SILVER bucket and removing it
again restores the book bit-for-bit. -/
theorem C9_add_remove_roundtrip_witness :
    ((({ offers := [], offersByPair := [("GOLD:SILVER", [7])] } :
        CAtomicSwapOrderBook).AddOffer
        { offerHash := 1, makerAssetName := "GOLD", makerAmount := 5,
          takerAssetName := "SILVER", takerAmount := 10 }).2.RemoveOffer
        1).2 =
      { offers := [], offersByPair := [("GOLD:SILVER", [7])] } := by
  have h := C9_add_remove_roundtrip
    { offers := [], offersByPair := [("GOLD:SILVER", [7])] }
    { offerHash := 1, makerAssetName := "GOLD", makerAmount := 5,
      takerAssetName := "SILVER", takerAmount := 10 } (by decide)
  exact h.2.2.2 [7] (by decide) (by decide)

/-- **C9 counterexample.** Add-then-remove is not bit-for-bit on the empty
book: `AddOffer` creates the "GOLD:SILVER" bucket via `operator[]`, and
`RemoveOffer` erases the hash from the bucket but leaves the (now empty)
bucket in the pair-index map, so the pair index differs from its value
before the add. -/
theorem C9_counterexample :
    ((({} : CAtomicSwapOrderBook).AddOffer
        { offerHash := 1, makerAssetName := "GOLD", makerAmount := 5,
          takerAssetName := "SILVER", takerAmount := 10 }).2.RemoveOffer
        1).2.offersByPair = [("GOLD:SILVER", [])] ∧
    ((({} : CAtomicSwapOrderBook).AddOffer
        { offerHash := 1, makerAssetName := "GOLD", makerAmount := 5,
          takerAssetName := "SILVER", takerAmount := 10 }).2.RemoveOffer
        1).2 ≠ ({} : CAtomicSwapOrderBook) := by
  constructor
  · decide
  · decide

theorem mnMapFind_eq_none_iff (m : List CDeterministicMN) (k : Nat) :
    mnMapFind m k = none ↔ ∀ e ∈ m, e.proTxHash ≠ k := by
  induction m with
  | nil => simp [mnMapFind]
  | cons e rest ih =>
      by_cases he : e.proTxHash = k
      · simp [mnMapFind, he]
      · simp [mnMapFind, he, ih]

theorem mnMapFind_some (m : List CDeterministicMN) (k : Nat)
    (mn : CDeterministicMN) (h : mnMapFind m k = some mn) :
    mn ∈ m ∧ mn.proTxHash = k := by
  induction m with
  | nil => simp [mnMapFind] at h
  | cons e rest ih =>
      by_cases he : e.proTxHash = k
      · simp [mnMapFind, he] at h
        subst h
        exact ⟨List.mem_cons_self _ _, he⟩
      · simp [mnMapFind, he] at h
        obtain ⟨hm, hk⟩ := ih h
        exact ⟨List.mem_cons_of_mem _ hm, hk⟩

theorem mnMapInsert_fresh (m : List CDeterministicMN)
    (mn : CDeterministicMN) (h : ∀ e ∈ m, e.proTxHash ≠ mn.proTxHash) :
    mnMapInsert m mn = m ++ [mn] := by
  induction m with
  | nil => rfl
  | cons e rest ih =>
      have he : e.proTxHash ≠ mn.proTxHash := h e (List.mem_cons_self _ _)
      simp only [mnMapInsert, he, if_false, List.cons_append]
      rw [ih (fun x hx => h x (List.mem_cons_of_mem _ hx))]

theorem mnMapInsert_split (m : List CDeterministicMN)
    (e' mn : CDeterministicMN)
    (hfound : mnMapFind m e'.proTxHash = some mn) :
    ∃ pre post, m = pre ++ mn :: post ∧
      mnMapInsert m e' = pre ++ e' :: post ∧
      ∀ x ∈ pre, x.proTxHash ≠ e'.proTxHash := by
  induction m with
  | nil => simp [mnMapFind] at hfound
  | cons y rest ih =>
      by_cases hy : y.proTxHash = e'.proTxHash
      · simp only [mnMapFind, hy, if_pos, Option.some.injEq] at hfound
        refine ⟨[], rest, ?_, ?_, ?_⟩
        · rw [hfound]
          rfl
        · simp only [mnMapInsert, hy, if_pos]
          rfl
        · intro x hx
          exact absurd hx (List.not_mem_nil x)
      · simp only [mnMapFind, hy, if_neg, if_false] at hfound
        obtain ⟨pre, post, hm, hins, hpre⟩ := ih hfound
        refine ⟨y :: pre, post, ?_, ?_, ?_⟩
        · rw [List.cons_append, ← hm]
        · simp only [mnMapInsert, hy, if_neg, if_false, List.cons_append]
          rw [hins]
        · intro x hx
          rcases List.mem_cons.1 hx with hxy | hxp
          · rw [hxy]
            exact hy
          · exact hpre x hxp

theorem pairwise_replace {r : CDeterministicMN → CDeterministicMN → Prop}
    (pre post : List CDeterministicMN) (mn e' : CDeterministicMN)
    (hp : (pre ++ mn :: post).Pairwise r)
    (h1 : ∀ x ∈ pre, r x mn → r x e') (h2 : ∀ x ∈ post, r mn x → r e' x) :
    (pre ++ e' :: post).Pairwise r := by
  rw [List.pairwise_append] at hp ⊢
  obtain ⟨hpre, hrest, hcross⟩ := hp
  rw [List.pairwise_cons] at hrest
  refine ⟨hpre, ?_, ?_⟩
  · rw [List.pairwise_cons]
    exact ⟨fun b hb => h2 b hb (hrest.1 b hb), hrest.2⟩
  · intro a ha b hb
    rcases List.mem_cons.1 hb with hbe | hbp
    · rw [hbe]
      exact h1 a ha (hcross a ha mn (List.mem_cons_self _ _))
    · exact hcross a ha b (List.mem_cons_of_mem _ hbp)

theorem mapFind_mapErase_ne {K V : Type} [DecidableEq K]
    (m : List (K × V)) (k k' : K) (hne : k ≠ k') :
    mapFind (mapErase m k) k' = mapFind m k' := by
  induction m with
  | nil => rfl
  | cons p rest ih =>
      by_cases hk : p.1 = k
      · rw [show mapErase (p :: rest) k = mapErase rest k by
          simp [mapErase, hk]]
        rw [ih]
        have : p.1 ≠ k' := by rw [hk]; exact hne
        simp [mapFind, this]
      · rw [show mapErase (p :: rest) k = p :: mapErase rest k by
          simp [mapErase, hk]]
        by_cases hk' : p.1 = k'
        · simp [mapFind, hk']
        · simp [mapFind, hk', ih]

theorem mapFind_mapErase_self {K V : Type} [DecidableEq K]
    (m : List (K × V)) (k : K) : mapFind (mapErase m k) k = none := by
  induction m with
  | nil => rfl
  | cons p rest ih =>
      by_cases hk : p.1 = k
      · simp [mapErase, hk, ih]
      · simp [mapErase, hk, mapFind, ih]

theorem addMN_inv (l : CDeterministicMNList) (mn : CDeterministicMN)
    (hinv : MNListInv l)
    (hfresh : ∀ e ∈ l.mnMap, e.proTxHash ≠ mn.proTxHash ∧ distinctProps e mn) :
    MNListInv (l.AddMN mn) ∧ (l.AddMN mn).mnMap = l.mnMap ++ [mn] := by
  obtain ⟨hkeys, hprops, hfwd, hrev⟩ := hinv
  have hmm : mnMapInsert l.mnMap mn = l.mnMap ++ [mn] :=
    mnMapInsert_fresh _ _ (fun e he => (hfresh e he).1)
  have haddm : (l.AddMN mn).mnMap = l.mnMap ++ [mn] := by
    simp only [CDeterministicMNList.AddMN]
    exact hmm
  have humap : (l.AddMN mn).mnUniquePropertyMap =
      mapInsert (mapInsert (mapInsert l.mnUniquePropertyMap
        (.utxo mn.collateralOutpoint) mn.proTxHash)
        (.addr mn.state.addr) mn.proTxHash)
        (.key mn.state.keyIDOwner) mn.proTxHash := rfl
  refine ⟨⟨?_, ?_, ?_, ?_⟩, haddm⟩
  · rw [haddm, List.pairwise_append]
    refine ⟨hkeys, List.pairwise_singleton _ _, ?_⟩
    intro a ha b hb
    rw [List.mem_singleton] at hb
    subst hb
    exact (hfresh a ha).1
  · rw [haddm, List.pairwise_append]
    refine ⟨hprops, List.pairwise_singleton _ _, ?_⟩
    intro a ha b hb
    rw [List.mem_singleton] at hb
    subst hb
    exact (hfresh a ha).2
  · rw [haddm, humap]
    intro e he
    rcases List.mem_append.1 he with he | he
    · have hcol := (hfresh e he).2.1
      have haddr := (hfresh e he).2.2.1
      have hown := (hfresh e he).2.2.2
      obtain ⟨f1, f2, f3⟩ := hfwd e he
      refine ⟨?_, ?_, ?_⟩
      · rw [mapFind_mapInsert_ne _ _ _ _ (by simp),
          mapFind_mapInsert_ne _ _ _ _ (by simp),
          mapFind_mapInsert_ne _ _ _ _ (by
            simp only [ne_eq, UniquePropertyHash.utxo.injEq]
            exact fun hh => hcol hh.symm)]
        exact f1
      · rw [mapFind_mapInsert_ne _ _ _ _ (by simp),
          mapFind_mapInsert_ne _ _ _ _ (by
            simp only [ne_eq, UniquePropertyHash.addr.injEq]
            exact fun hh => haddr hh.symm),
          mapFind_mapInsert_ne _ _ _ _ (by simp)]
        exact f2
      · rw [mapFind_mapInsert_ne _ _ _ _ (by
            simp only [ne_eq, UniquePropertyHash.key.injEq]
            exact fun hh => hown hh.symm),
          mapFind_mapInsert_ne _ _ _ _ (by simp),
          mapFind_mapInsert_ne _ _ _ _ (by simp)]
        exact f3
    · rw [List.mem_singleton] at he
      subst he
      refine ⟨?_, ?_, ?_⟩
      · rw [mapFind_mapInsert_ne _ _ _ _ (by simp),
          mapFind_mapInsert_ne _ _ _ _ (by simp),
          mapFind_mapInsert_self]
      · rw [mapFind_mapInsert_ne _ _ _ _ (by simp),
          mapFind_mapInsert_self]
      · rw [mapFind_mapInsert_self]
  · rw [haddm, humap]
    intro p h' hfind
    by_cases hp1 : p = .key mn.state.keyIDOwner
    · subst hp1
      rw [mapFind_mapInsert_self] at hfind
      cases hfind
      exact ⟨mn, List.mem_append.2 (Or.inr (List.mem_singleton.2 rfl)),
        rfl, rfl⟩
    · rw [mapFind_mapInsert_ne _ _ _ _ (fun he => hp1 he.symm)] at hfind
      by_cases hp2 : p = .addr mn.state.addr
      · subst hp2
        rw [mapFind_mapInsert_self] at hfind
        cases hfind
        exact ⟨mn, List.mem_append.2 (Or.inr (List.mem_singleton.2 rfl)),
          rfl, rfl⟩
      · rw [mapFind_mapInsert_ne _ _ _ _ (fun he => hp2 he.symm)] at hfind
        by_cases hp3 : p = .utxo mn.collateralOutpoint
        · subst hp3
          rw [mapFind_mapInsert_self] at hfind
          cases hfind
          exact ⟨mn, List.mem_append.2 (Or.inr (List.mem_singleton.2 rfl)),
            rfl, rfl⟩
        · rw [mapFind_mapInsert_ne _ _ _ _ (fun he => hp3 he.symm)] at hfind
          obtain ⟨e, he, hkey, hprop⟩ := hrev p h' hfind
          exact ⟨e, List.mem_append.2 (Or.inl he), hkey, hprop⟩

theorem emptyMNListInv (blockHash : Nat) (height : Int) :
    MNListInv { blockHash := blockHash, nHeight := height } := by
  refine ⟨List.Pairwise.nil, List.Pairwise.nil, ?_, ?_⟩
  · intro mn hmn
    exact absurd hmn (List.not_mem_nil mn)
  · intro p h hfind
    simp [mapFind] at hfind

theorem rebuild_fold (entries : List CDeterministicMN) :
    ∀ (acc : CDeterministicMNList), MNListInv acc →
      (∀ a ∈ acc.mnMap, ∀ b ∈ entries,
        a.proTxHash ≠ b.proTxHash ∧ distinctProps a b) →
      entries.Pairwise (fun a b => a.proTxHash ≠ b.proTxHash ∧
        distinctProps a b) →
      MNListInv (entries.foldl (fun acc mn => acc.AddMN mn) acc) ∧
      (entries.foldl (fun acc mn => acc.AddMN mn) acc).mnMap =
        acc.mnMap ++ entries := by
  induction entries with
  | nil =>
      intro acc hinv _ _
      exact ⟨hinv, by simp⟩
  | cons mn rest ih =>
      intro acc hinv hcross hpair
      have hfresh : ∀ e ∈ acc.mnMap,
          e.proTxHash ≠ mn.proTxHash ∧ distinctProps e mn :=
        fun e he => hcross e he mn (List.mem_cons_self _ _)
      obtain ⟨hinv', hmap'⟩ := addMN_inv acc mn hinv hfresh
      have hcross' : ∀ a ∈ (acc.AddMN mn).mnMap, ∀ b ∈ rest,
          a.proTxHash ≠ b.proTxHash ∧ distinctProps a b := by
        intro a ha b hb
        rw [hmap'] at ha
        rcases List.mem_append.1 ha with ha | ha
        · exact hcross a ha b (List.mem_cons_of_mem _ hb)
        · rw [List.mem_singleton] at ha
          subst ha
          exact (List.pairwise_cons.1 hpair).1 b hb
      obtain ⟨hres, hresmap⟩ := ih (acc.AddMN mn) hinv' hcross' hpair.of_cons
      refine ⟨hres, ?_⟩
      rw [List.foldl_cons, hresmap, hmap', List.append_assoc]
      rfl

theorem updateMN_inv (l : CDeterministicMNList) (k : Nat)
    (newState : CDeterministicMNState) (hinv : MNListInv l)
    (mn : CDeterministicMN) (hmn : l.GetMN k = some mn)
    (hown : newState.keyIDOwner = mn.state.keyIDOwner)
    (haddr : newState.addr = mn.state.addr ∨
      ∀ e ∈ l.mnMap, e.state.addr ≠ newState.addr) :
    MNListInv (l.UpdateMN k newState) := by
  obtain ⟨hkeys, hprops, hfwd, hrev⟩ := hinv
  have hmem : mn ∈ l.mnMap ∧ mn.proTxHash = k := mnMapFind_some _ _ _ hmn
  have hkeyeq : mn.proTxHash = k := hmem.2
  obtain ⟨e', he2⟩ : ∃ e',
      ({ mn with state := newState } : CDeterministicMN) = e' := ⟨_, rfl⟩
  have he'key : e'.proTxHash = k := by
    rw [← he2]
    exact hkeyeq
  have he'col : e'.collateralOutpoint = mn.collateralOutpoint := by
    rw [← he2]
  have he'own : e'.state.keyIDOwner = newState.keyIDOwner := by
    rw [← he2]
  have he'addr : e'.state.addr = newState.addr := by
    rw [← he2]
  have hfound : mnMapFind l.mnMap e'.proTxHash = some mn := by
    rw [he'key]
    exact hmn
  obtain ⟨pre, post, hm, hins, hpre⟩ := mnMapInsert_split l.mnMap e' mn hfound
  have hkeys2 : (pre ++ mn :: post).Pairwise
      (fun a b => a.proTxHash ≠ b.proTxHash) := hm ▸ hkeys
  have hprops2 : (pre ++ mn :: post).Pairwise distinctProps := hm ▸ hprops
  have hrpre : ∀ e ∈ pre, e.proTxHash ≠ mn.proTxHash ∧ distinctProps e mn := by
    intro e he
    rw [List.pairwise_append] at hkeys2 hprops2
    exact ⟨hkeys2.2.2 e he mn (List.mem_cons_self _ _),
      hprops2.2.2 e he mn (List.mem_cons_self _ _)⟩
  have hrpost : ∀ e ∈ post, mn.proTxHash ≠ e.proTxHash ∧
      distinctProps mn e := by
    intro e he
    rw [List.pairwise_append, List.pairwise_cons] at hkeys2 hprops2
    exact ⟨hkeys2.2.1.1 e he, hprops2.2.1.1 e he⟩
  have hmapkeys : (pre ++ e' :: post).Pairwise
      (fun a b => a.proTxHash ≠ b.proTxHash) := by
    refine pairwise_replace pre post mn e' hkeys2 ?_ ?_
    · intro x _ hx
      rw [he'key]
      rw [hkeyeq] at hx
      exact hx
    · intro x _ hx
      rw [he'key]
      rw [hkeyeq] at hx
      exact hx
  have hmapprops : (pre ++ e' :: post).Pairwise distinctProps := by
    refine pairwise_replace pre post mn e' hprops2 ?_ ?_
    · intro x hx hdp
      refine ⟨by rw [he'col]; exact hdp.1, ?_,
        by rw [he'own, hown]; exact hdp.2.2⟩
      rw [he'addr]
      rcases haddr with ha | ha
      · rw [ha]
        exact hdp.2.1
      · exact ha x (hm ▸ List.mem_append.2 (Or.inl hx))
    · intro x hx hdp
      refine ⟨by rw [he'col]; exact hdp.1, ?_,
        by rw [he'own, hown]; exact hdp.2.2⟩
      rw [he'addr]
      intro hcontra
      rcases haddr with ha | ha
      · rw [ha] at hcontra
        exact hdp.2.1 hcontra
      · exact ha x (hm ▸ List.mem_append.2
          (Or.inr (List.mem_cons_of_mem _ hx))) hcontra.symm
  have hl0 : l.UpdateMN k newState =
      { l with
        mnUniquePropertyMap :=
          if mn.state.addr ≠ newState.addr then
            mapInsert
              (mapErase l.mnUniquePropertyMap
                (UniquePropertyHash.addr mn.state.addr))
              (UniquePropertyHash.addr newState.addr) k
          else l.mnUniquePropertyMap
        mnMap := mnMapInsert l.mnMap { mn with state := newState } } := by
    unfold CDeterministicMNList.UpdateMN
    rw [hmn]
  have hl' : l.UpdateMN k newState =
      { l with
        mnUniquePropertyMap :=
          if mn.state.addr ≠ newState.addr then
            mapInsert
              (mapErase l.mnUniquePropertyMap
                (UniquePropertyHash.addr mn.state.addr))
              (UniquePropertyHash.addr newState.addr) k
          else l.mnUniquePropertyMap
        mnMap := mnMapInsert l.mnMap e' } := by
    rw [hl0, he2]
  rw [hl']
  by_cases hc : mn.state.addr ≠ newState.addr
  · -- address changed: the index moves the addr binding
    have hfreshaddr : ∀ e ∈ l.mnMap, e.state.addr ≠ newState.addr := by
      rcases haddr with ha | ha
      · exact absurd ha.symm hc
      · exact ha
    rw [if_pos hc]
    refine ⟨?_, ?_, ?_, ?_⟩
    · show (mnMapInsert l.mnMap e').Pairwise
        (fun a b => a.proTxHash ≠ b.proTxHash)
      rw [hins]
      exact hmapkeys
    · show (mnMapInsert l.mnMap e').Pairwise distinctProps
      rw [hins]
      exact hmapprops
    · show ∀ e ∈ mnMapInsert l.mnMap e',
        mapFind (mapInsert (mapErase l.mnUniquePropertyMap
            (UniquePropertyHash.addr mn.state.addr))
          (UniquePropertyHash.addr newState.addr) k)
          (UniquePropertyHash.utxo e.collateralOutpoint) =
            some e.proTxHash ∧
        mapFind (mapInsert (mapErase l.mnUniquePropertyMap
            (UniquePropertyHash.addr mn.state.addr))
          (UniquePropertyHash.addr newState.addr) k)
          (UniquePropertyHash.addr e.state.addr) = some e.proTxHash ∧
        mapFind (mapInsert (mapErase l.mnUniquePropertyMap
            (UniquePropertyHash.addr mn.state.addr))
          (UniquePropertyHash.addr newState.addr) k)
          (UniquePropertyHash.key e.state.keyIDOwner) = some e.proTxHash
      intro e he
      rw [hins] at he
      rcases List.mem_append.1 he with hepre | herest
      · have hdp := (hrpre e hepre).2
        have hmem2 : e ∈ l.mnMap := hm ▸ List.mem_append.2 (Or.inl hepre)
        obtain ⟨f1, f2, f3⟩ := hfwd e hmem2
        refine ⟨?_, ?_, ?_⟩
        · rw [mapFind_mapInsert_ne _ _ _ _ (by simp),
            mapFind_mapErase_ne _ _ _ (by simp)]
          exact f1
        · rw [mapFind_mapInsert_ne _ _ _ _ (by
              simp only [ne_eq, UniquePropertyHash.addr.injEq]
              exact fun hh => hfreshaddr e hmem2 hh.symm),
            mapFind_mapErase_ne _ _ _ (by
              simp only [ne_eq, UniquePropertyHash.addr.injEq]
              exact fun hh => hdp.2.1 hh.symm)]
          exact f2
        · rw [mapFind_mapInsert_ne _ _ _ _ (by simp),
            mapFind_mapErase_ne _ _ _ (by simp)]
          exact f3
      · rcases List.mem_cons.1 herest with hee | hepost
        · subst hee
          obtain ⟨f1, _, f3⟩ := hfwd mn hmem.1
          refine ⟨?_, ?_, ?_⟩
          · rw [he'key, he'col, mapFind_mapInsert_ne _ _ _ _ (by simp),
              mapFind_mapErase_ne _ _ _ (by simp), f1, hkeyeq]
          · rw [he'key, he'addr, mapFind_mapInsert_self]
          · rw [he'key, he'own, hown,
              mapFind_mapInsert_ne _ _ _ _ (by simp),
              mapFind_mapErase_ne _ _ _ (by simp), f3, hkeyeq]
        · have hdp := (hrpost e hepost).2
          have hmem2 : e ∈ l.mnMap := hm ▸ List.mem_append.2
            (Or.inr (List.mem_cons_of_mem _ hepost))
          obtain ⟨f1, f2, f3⟩ := hfwd e hmem2
          refine ⟨?_, ?_, ?_⟩
          · rw [mapFind_mapInsert_ne _ _ _ _ (by simp),
              mapFind_mapErase_ne _ _ _ (by simp)]
            exact f1
          · rw [mapFind_mapInsert_ne _ _ _ _ (by
                simp only [ne_eq, UniquePropertyHash.addr.injEq]
                exact fun hh => hfreshaddr e hmem2 hh.symm),
              mapFind_mapErase_ne _ _ _ (by
                simp only [ne_eq, UniquePropertyHash.addr.injEq]
                exact fun hh => hdp.2.1 hh)]
            exact f2
          · rw [mapFind_mapInsert_ne _ _ _ _ (by simp),
              mapFind_mapErase_ne _ _ _ (by simp)]
            exact f3
    · show ∀ p h', mapFind (mapInsert (mapErase l.mnUniquePropertyMap
          (UniquePropertyHash.addr mn.state.addr))
          (UniquePropertyHash.addr newState.addr) k) p = some h' →
        ∃ w ∈ mnMapInsert l.mnMap e', w.proTxHash = h' ∧ holdsProp w p
      intro p h' hfind
      rw [hins]
      by_cases hp1 : p = .addr newState.addr
      · subst hp1
        rw [mapFind_mapInsert_self] at hfind
        cases hfind
        refine ⟨e', List.mem_append.2 (Or.inr (List.mem_cons_self _ _)),
          he'key, ?_⟩
        show e'.state.addr = newState.addr
        exact he'addr
      · rw [mapFind_mapInsert_ne _ _ _ _ (fun hh => hp1 hh.symm)] at hfind
        by_cases hp2 : p = .addr mn.state.addr
        · subst hp2
          rw [mapFind_mapErase_self] at hfind
          exact absurd hfind (by simp)
        · rw [mapFind_mapErase_ne _ _ _ (fun hh => hp2 hh.symm)] at hfind
          obtain ⟨w, hw, hwkey, hwprop⟩ := hrev p h' hfind
          rw [hm] at hw
          rcases List.mem_append.1 hw with hwpre | hwrest
          · exact ⟨w, List.mem_append.2 (Or.inl hwpre), hwkey, hwprop⟩
          · rcases List.mem_cons.1 hwrest with hwmn | hwpost
            · rw [hwmn] at hwkey hwprop
              refine ⟨e', List.mem_append.2 (Or.inr (List.mem_cons_self _ _)),
                by rw [he'key, ← hkeyeq]; exact hwkey, ?_⟩
              cases p with
              | utxo o =>
                  show e'.collateralOutpoint = o
                  rw [he'col]
                  exact hwprop
              | addr a =>
                  exact absurd (show UniquePropertyHash.addr a =
                      UniquePropertyHash.addr mn.state.addr by
                    rw [hwprop]) hp2
              | key c =>
                  show e'.state.keyIDOwner = c
                  rw [he'own, hown]
                  exact hwprop
            · exact ⟨w, List.mem_append.2 (Or.inr (List.mem_cons_of_mem _
                hwpost)), hwkey, hwprop⟩
  · -- address unchanged: the index is untouched
    rw [if_neg hc]
    push_neg at hc
    refine ⟨?_, ?_, ?_, ?_⟩
    · show (mnMapInsert l.mnMap e').Pairwise
        (fun a b => a.proTxHash ≠ b.proTxHash)
      rw [hins]
      exact hmapkeys
    · show (mnMapInsert l.mnMap e').Pairwise distinctProps
      rw [hins]
      exact hmapprops
    · show ∀ e ∈ mnMapInsert l.mnMap e',
        mapFind l.mnUniquePropertyMap
          (UniquePropertyHash.utxo e.collateralOutpoint) =
            some e.proTxHash ∧
        mapFind l.mnUniquePropertyMap (UniquePropertyHash.addr e.state.addr) =
          some e.proTxHash ∧
        mapFind l.mnUniquePropertyMap
          (UniquePropertyHash.key e.state.keyIDOwner) = some e.proTxHash
      intro e he
      rw [hins] at he
      rcases List.mem_append.1 he with hepre | herest
      · exact hfwd e (hm ▸ List.mem_append.2 (Or.inl hepre))
      · rcases List.mem_cons.1 herest with hee | hepost
        · subst hee
          obtain ⟨f1, f2, f3⟩ := hfwd mn hmem.1
          refine ⟨?_, ?_, ?_⟩
          · rw [he'key, he'col, f1, hkeyeq]
          · rw [he'key, he'addr, ← hc, f2, hkeyeq]
          · rw [he'key, he'own, hown, f3, hkeyeq]
        · exact hfwd e (hm ▸ List.mem_append.2
            (Or.inr (List.mem_cons_of_mem _ hepost)))
    · show ∀ p h', mapFind l.mnUniquePropertyMap p = some h' →
        ∃ w ∈ mnMapInsert l.mnMap e', w.proTxHash = h' ∧ holdsProp w p
      intro p h' hfind
      rw [hins]
      obtain ⟨w, hw, hwkey, hwprop⟩ := hrev p h' hfind
      rw [hm] at hw
      rcases List.mem_append.1 hw with hwpre | hwrest
      · exact ⟨w, List.mem_append.2 (Or.inl hwpre), hwkey, hwprop⟩
      · rcases List.mem_cons.1 hwrest with hwmn | hwpost
        · rw [hwmn] at hwkey hwprop
          refine ⟨e', List.mem_append.2 (Or.inr (List.mem_cons_self _ _)),
            by rw [he'key, ← hkeyeq]; exact hwkey, ?_⟩
          cases p with
          | utxo o =>
              show e'.collateralOutpoint = o
              rw [he'col]
              exact hwprop
          | addr a =>
              show e'.state.addr = a
              rw [he'addr, ← hc]
              exact hwprop
          | key c =>
              show e'.state.keyIDOwner = c
              rw [he'own, hown]
              exact hwprop
        · exact ⟨w, List.mem_append.2 (Or.inr (List.mem_cons_of_mem _
            hwpost)), hwkey, hwprop⟩

theorem eq_of_key_eq (m : List CDeterministicMN)
    (hp : m.Pairwise (fun a b => a.proTxHash ≠ b.proTxHash)) :
    ∀ a ∈ m, ∀ b ∈ m, a.proTxHash = b.proTxHash → a = b := by
  induction m with
  | nil =>
      intro a ha
      exact absurd ha (List.not_mem_nil a)
  | cons x rest ih =>
      intro a ha b hb heq
      rw [List.pairwise_cons] at hp
      rcases List.mem_cons.1 ha with hax | har
      · rcases List.mem_cons.1 hb with hbx | hbr
        · rw [hax, hbx]
        · subst hax
          exact absurd heq (hp.1 b hbr)
      · rcases List.mem_cons.1 hb with hbx | hbr
        · subst hbx
          exact absurd heq.symm (hp.1 a har)
        · exact ih hp.2 a har b hbr heq

theorem checkProRegTx_no_collision (O : ProviderTxOracles)
    (l : CDeterministicMNList) (tx : CTransaction) (proTx : CProRegTx)
    (hpl : tx.payload = some (.reg proTx))
    (hchk : CheckProRegTx O (some l) tx = true) :
    l.HasUniqueProperty (.addr proTx.addr) = false ∧
    l.HasUniqueProperty (.key proTx.keyIDOwner) = false ∧
    l.GetMNByCollateral proTx.collateralOutpoint = none := by
  refine ⟨?_, ?_, ?_⟩
  · cases hb : l.HasUniqueProperty (.addr proTx.addr) with
    | false => rfl
    | true =>
        exfalso
        simp [CheckProRegTx, hpl, hb] at hchk
  · cases hb : l.HasUniqueProperty (.key proTx.keyIDOwner) with
    | false => rfl
    | true =>
        exfalso
        simp [CheckProRegTx, hpl, hb] at hchk
  · cases hb : l.GetMNByCollateral proTx.collateralOutpoint with
    | none => rfl
    | some e =>
        exfalso
        simp [CheckProRegTx, hpl, hb] at hchk

theorem checkProUpServTx_service (O : ProviderTxOracles)
    (prev : CDeterministicMNList) (tx : CTransaction) (proTx : CProUpServTx)
    (hpl : tx.payload = some (.upServ proTx))
    (hchk : CheckProUpServTx O (some prev) tx = true) :
    ∀ existing, prev.GetMNByService proTx.addr = some existing →
      existing.proTxHash = proTx.proTxHash := by
  intro existing hex
  by_cases hne : existing.proTxHash = proTx.proTxHash
  · exact hne
  · exfalso
    cases hg : prev.GetMN proTx.proTxHash with
    | none => simp [CheckProUpServTx, hpl, hg] at hchk
    | some mn0 => simp [CheckProUpServTx, hpl, hg, hex, hne] at hchk

theorem upServNewState_own (old : CDeterministicMNState)
    (proTx : CProUpServTx) :
    (upServNewState old proTx).keyIDOwner = old.keyIDOwner := rfl

theorem upServNewState_addr (old : CDeterministicMNState)
    (proTx : CProUpServTx) :
    (upServNewState old proTx).addr = proTx.addr := rfl

theorem upRegNewState_own (h : Int) (old : CDeterministicMNState)
    (proTx : CProUpRegTx) :
    (upRegNewState h old proTx).keyIDOwner = old.keyIDOwner := by
  simp only [upRegNewState]
  repeat' split
  all_goals rfl

theorem upRegNewState_addr (h : Int) (old : CDeterministicMNState)
    (proTx : CProUpRegTx) :
    (upRegNewState h old proTx).addr = old.addr := by
  simp only [upRegNewState]
  repeat' split
  all_goals rfl

theorem upRevNewState_own (h : Int) (old : CDeterministicMNState)
    (proTx : CProUpRevTx) :
    (upRevNewState h old proTx).keyIDOwner = old.keyIDOwner := rfl

theorem upRevNewState_addr (h : Int) (old : CDeterministicMNState)
    (proTx : CProUpRevTx) :
    (upRevNewState h old proTx).addr = old.addr := rfl

theorem applyProRegTx_inv (O : ProviderTxOracles)
    (prev base : CDeterministicMNList) (h : Int) (tx : CTransaction)
    (proTx : CProRegTx) (hbinv : MNListInv base) (hpinv : MNListInv prev)
    (hmap : base.mnMap = prev.mnMap)
    (hpl : tx.payload = some (.reg proTx))
    (hchk : CheckProRegTx O (some prev) tx = true)
    (hid : prev.GetMN tx.hash = none) :
    MNListInv (applyProRegTx base h tx.hash proTx) := by
  obtain ⟨hna, hnk, hnc⟩ := checkProRegTx_no_collision O prev tx proTx hpl hchk
  simp only [applyProRegTx]
  refine (addMN_inv _ _ ?_ ?_).1
  · exact hbinv
  · intro e he
    have he' : e ∈ prev.mnMap := by
      rw [← hmap]
      exact he
    constructor
    · exact (mnMapFind_eq_none_iff prev.mnMap tx.hash).1 hid e he'
    · show e.collateralOutpoint ≠ proTx.collateralOutpoint ∧
        e.state.addr ≠ proTx.addr ∧ e.state.keyIDOwner ≠ proTx.keyIDOwner
      unfold CDeterministicMNList.GetMNByCollateral at hnc
      refine ⟨?_, ?_, ?_⟩
      · have hmm := List.find?_eq_none.1 hnc e he'
        simpa using hmm
      · intro hc
        obtain ⟨f1, f2, f3⟩ := hpinv.2.2.1 e he'
        rw [hc] at f2
        have htrue : prev.HasUniqueProperty (.addr proTx.addr) = true := by
          unfold CDeterministicMNList.HasUniqueProperty
          rw [f2]
          rfl
        rw [htrue] at hna
        exact Bool.noConfusion hna
      · intro hc
        obtain ⟨f1, f2, f3⟩ := hpinv.2.2.1 e he'
        rw [hc] at f3
        have htrue : prev.HasUniqueProperty (.key proTx.keyIDOwner) = true := by
          unfold CDeterministicMNList.HasUniqueProperty
          rw [f3]
          rfl
        rw [htrue] at hnk
        exact Bool.noConfusion hnk

theorem applyUpServTx_inv (O : ProviderTxOracles)
    (prev base : CDeterministicMNList) (tx : CTransaction)
    (proTx : CProUpServTx) (mn : CDeterministicMN)
    (hbinv : MNListInv base) (hpinv : MNListInv prev)
    (hmap : base.mnMap = prev.mnMap)
    (hpl : tx.payload = some (.upServ proTx))
    (hchk : CheckProUpServTx O (some prev) tx = true)
    (hg : base.GetMN proTx.proTxHash = some mn) :
    MNListInv (base.UpdateMN proTx.proTxHash (upServNewState mn.state proTx)) := by
  refine updateMN_inv base proTx.proTxHash _ hbinv mn hg
    (upServNewState_own mn.state proTx) ?_
  cases hserv : prev.GetMNByService proTx.addr with
  | none =>
      right
      intro e he
      rw [hmap] at he
      unfold CDeterministicMNList.GetMNByService at hserv
      have hmm := List.find?_eq_none.1 hserv e he
      rw [upServNewState_addr]
      simpa using hmm
  | some existing =>
      left
      have hkey := checkProUpServTx_service O prev tx proTx hpl hchk existing hserv
      unfold CDeterministicMNList.GetMNByService at hserv
      have hexmem : existing ∈ prev.mnMap := List.mem_of_find?_eq_some hserv
      have hexaddr : existing.state.addr = proTx.addr := by
        have hp := List.find?_some hserv
        simpa using hp
      obtain ⟨hmnmem, hmnkey⟩ := mnMapFind_some _ _ _ hg
      have hmnprev : mn ∈ prev.mnMap := by
        rw [← hmap]
        exact hmnmem
      have he : existing = mn :=
        eq_of_key_eq prev.mnMap hpinv.1 existing hexmem mn hmnprev
          (by rw [hkey, hmnkey])
      rw [upServNewState_addr, ← hexaddr, he]

theorem applySpecialTx_inv (O : ProviderTxOracles)
    (prev base : CDeterministicMNList) (h : Int) (tx : CTransaction)
    (l' : CDeterministicMNList) (hbinv : MNListInv base)
    (hpinv : MNListInv prev) (hmap : base.mnMap = prev.mnMap)
    (hchk : CheckSpecialTx O (some prev) tx = true)
    (hfreshid : tx.nType = 1 → prev.GetMN tx.hash = none)
    (happ : applySpecialTx h base tx = .ok l') :
    MNListInv l' := by
  by_cases hspec : IsTxTypeSpecial tx = true
  · unfold applySpecialTx at happ
    rw [if_neg (not_not_intro hspec)] at happ
    unfold CheckSpecialTx at hchk
    rw [if_neg (not_not_intro hspec)] at hchk
    split at hchk
    · rename_i heq
      split at happ
      · split at happ
        · rename_i proTx hpl
          injection happ with hh
          rw [← hh]
          exact applyProRegTx_inv O prev base h tx proTx hbinv hpinv hmap hpl
            hchk (hfreshid heq)
        · simp at happ
      · rename_i heq2
        omega
      · rename_i heq2
        omega
      · rename_i heq2
        omega
      · rename_i h1 h2 h3 h4
        exact absurd heq h1
    · rename_i heq
      split at happ
      · rename_i heq2
        omega
      · split at happ
        · rename_i proTx hpl
          split at happ
          · simp at happ
          · rename_i mn hg
            injection happ with hh
            rw [← hh]
            exact applyUpServTx_inv O prev base tx proTx mn hbinv hpinv hmap
              hpl hchk hg
        · simp at happ
      · rename_i heq2
        omega
      · rename_i heq2
        omega
      · rename_i h1 h2 h3 h4
        exact absurd heq h2
    · rename_i heq
      split at happ
      · rename_i heq2
        omega
      · rename_i heq2
        omega
      · split at happ
        · rename_i proTx hpl
          split at happ
          · simp at happ
          · rename_i mn hg
            injection happ with hh
            rw [← hh]
            exact updateMN_inv base proTx.proTxHash _ hbinv mn hg
              (upRegNewState_own h mn.state proTx)
              (Or.inl (upRegNewState_addr h mn.state proTx))
        · simp at happ
      · rename_i heq2
        omega
      · rename_i h1 h2 h3 h4
        exact absurd heq h3
    · rename_i heq
      split at happ
      · rename_i heq2
        omega
      · rename_i heq2
        omega
      · rename_i heq2
        omega
      · split at happ
        · rename_i proTx hpl
          split at happ
          · simp at happ
          · rename_i mn hg
            injection happ with hh
            rw [← hh]
            exact updateMN_inv base proTx.proTxHash _ hbinv mn hg
              (upRevNewState_own h mn.state proTx)
              (Or.inl (upRevNewState_addr h mn.state proTx))
        · simp at happ
      · rename_i h1 h2 h3 h4
        exact absurd heq h4
    · simp at hchk
  · unfold applySpecialTx at happ
    rw [if_pos hspec] at happ
    injection happ with hh
    rw [← hh]
    exact hbinv

theorem applySpecialTxs_noSpecial (h : Int) (txs : List CTransaction) :
    ∀ l, (∀ tx ∈ txs, ¬ IsTxTypeSpecial tx = true) →
      applySpecialTxs h l txs = .ok l := by
  induction txs with
  | nil =>
      intro l _
      rfl
  | cons tx rest ih =>
      intro l hns
      have h0 := hns tx (List.mem_cons_self _ _)
      have hstep : applySpecialTx h l tx = .ok l := by
        unfold applySpecialTx
        rw [if_pos h0]
      simp only [applySpecialTxs, hstep]
      exact ih l (fun t ht => hns t (List.mem_cons_of_mem _ ht))

theorem applySpecialTxs_le1_inv (O : ProviderTxOracles)
    (prev : CDeterministicMNList) (h : Int) (hpinv : MNListInv prev)
    (txs : List CTransaction) :
    ∀ (base : CDeterministicMNList), MNListInv base →
      base.mnMap = prev.mnMap →
      (txs.filter IsTxTypeSpecial).length ≤ 1 →
      (∀ tx ∈ txs, CheckSpecialTx O (some prev) tx = true) →
      (∀ tx ∈ txs, tx.nType = 1 → prev.GetMN tx.hash = none) →
      ∀ l', applySpecialTxs h base txs = .ok l' → MNListInv l' := by
  induction txs with
  | nil =>
      intro base hbinv _ _ _ _ l' hap
      injection hap with hh
      rw [← hh]
      exact hbinv
  | cons tx rest ih =>
      intro base hbinv hbmap hle hchk hfresh l' hap
      cases hstep : applySpecialTx h base tx with
      | error e =>
          simp [applySpecialTxs, hstep] at hap
      | ok base' =>
          simp only [applySpecialTxs, hstep] at hap
          by_cases hsp : IsTxTypeSpecial tx = true
          · have hrest : ∀ t ∈ rest, ¬ IsTxTypeSpecial t = true := by
              rw [List.filter_cons_of_pos hsp] at hle
              simp only [List.length_cons] at hle
              have hz : (rest.filter IsTxTypeSpecial).length = 0 := by omega
              rw [List.length_eq_zero] at hz
              intro t ht hcontra
              have : t ∈ rest.filter IsTxTypeSpecial :=
                List.mem_filter.2 ⟨ht, hcontra⟩
              rw [hz] at this
              exact absurd this (List.not_mem_nil t)
            have hinv' : MNListInv base' :=
              applySpecialTx_inv O prev base h tx base' hbinv hpinv hbmap
                (hchk tx (List.mem_cons_self _ _))
                (hfresh tx (List.mem_cons_self _ _)) hstep
            rw [applySpecialTxs_noSpecial h rest base' hrest] at hap
            injection hap with hh
            rw [← hh]
            exact hinv'
          · have hbase' : base' = base := by
              unfold applySpecialTx at hstep
              rw [if_pos hsp] at hstep
              injection hstep with hh
              exact hh.symm
            rw [hbase'] at hap
            refine ih base hbinv hbmap ?_ ?_ ?_ l' hap
            · rw [List.filter_cons_of_neg hsp] at hle
              exact hle
            · exact fun t ht => hchk t (List.mem_cons_of_mem _ ht)
            · exact fun t ht => hfresh t (List.mem_cons_of_mem _ ht)

theorem processBlock_inv (O : ProviderTxOracles) (prev : CDeterministicMNList)
    (bh : Nat) (h : Int) (txs : List CTransaction)
    (l' : CDeterministicMNList) (hpinv : MNListInv prev)
    (hle : (txs.filter IsTxTypeSpecial).length ≤ 1)
    (hchk : ∀ tx ∈ txs, CheckSpecialTx O (some prev) tx = true)
    (hfresh : ∀ tx ∈ txs, tx.nType = 1 → prev.GetMN tx.hash = none)
    (hproc : ProcessBlockMNList prev bh h txs = .ok l') :
    MNListInv l' := by
  unfold ProcessBlockMNList at hproc
  obtain ⟨hbinv, hbmap⟩ := rebuild_fold prev.mnMap
    { blockHash := bh, nHeight := h } (emptyMNListInv bh h)
    (by
      intro a ha
      exact absurd ha (List.not_mem_nil a))
    (hpinv.1.and hpinv.2.1)
  rw [List.nil_append] at hbmap
  exact applySpecialTxs_le1_inv O prev h hpinv txs _ hbinv hbmap hle hchk
    hfresh l' hproc

theorem reachableMNList_inv (O : ProviderTxOracles)
    (l : CDeterministicMNList) (hreach : ReachableMNList O l) :
    MNListInv l := by
  induction hreach with
  | base bh h => exact emptyMNListInv bh h
  | step l l' bh h txs hr hle hchk hfresh hproc ih =>
      exact processBlock_inv O l bh h txs l' ih hle hchk hfresh hproc

theorem checkProRegTx_collision_rejected (O : ProviderTxOracles)
    (l : CDeterministicMNList) (hinv : MNListInv l) (tx : CTransaction)
    (proTx : CProRegTx) (e : CDeterministicMN)
    (hpl : tx.payload = some (.reg proTx)) (he : e ∈ l.mnMap)
    (hcol : e.state.keyIDOwner = proTx.keyIDOwner ∨
      e.state.addr = proTx.addr ∨
      e.collateralOutpoint = proTx.collateralOutpoint) :
    CheckProRegTx O (some l) tx = false := by
  cases hb : CheckProRegTx O (some l) tx with
  | false => rfl
  | true =>
      exfalso
      obtain ⟨hna, hnk, hnc⟩ := checkProRegTx_no_collision O l tx proTx hpl hb
      obtain ⟨f1, f2, f3⟩ := hinv.2.2.1 e he
      rcases hcol with hk | ha | hc
      · rw [hk] at f3
        have htrue : l.HasUniqueProperty (.key proTx.keyIDOwner) = true := by
          unfold CDeterministicMNList.HasUniqueProperty
          rw [f3]
          rfl
        rw [htrue] at hnk
        exact Bool.noConfusion hnk
      · rw [ha] at f2
        have htrue : l.HasUniqueProperty (.addr proTx.addr) = true := by
          unfold CDeterministicMNList.HasUniqueProperty
          rw [f2]
          rfl
        rw [htrue] at hna
        exact Bool.noConfusion hna
      · unfold CDeterministicMNList.GetMNByCollateral at hnc
        have hmm := List.find?_eq_none.1 hnc e he
        simp [hc] at hmm

/-- **C4.** (corrected: the reachability relation restricts valid blocks to
at most one special transaction — see `C4_counterexample` — and carries the
chain guarantee that registration txids are fresh.)  For every masternode
list reachable by processing such valid blocks from an empty list, no two
entries share a collateral outpoint, endpoint or owner key id
(`distinctProps` pairwise), the unique-property index maps each of an
entry's three property hashes to that entry's `proTxHash`, and every index
binding points back to an entry holding the property; moreover a
`PROVIDER_REGISTER` payload whose owner key, endpoint or collateral
outpoint collides with an entry already in the list fails
`CheckProRegTx` against that list. -/
theorem C4_reachable_list_unique (O : ProviderTxOracles)
    (l : CDeterministicMNList) (hreach : ReachableMNList O l) :
    (l.mnMap.Pairwise distinctProps ∧
      (∀ mn ∈ l.mnMap,
        mapFind l.mnUniquePropertyMap (.utxo mn.collateralOutpoint) =
          some mn.proTxHash ∧
        mapFind l.mnUniquePropertyMap (.addr mn.state.addr) =
          some mn.proTxHash ∧
        mapFind l.mnUniquePropertyMap (.key mn.state.keyIDOwner) =
          some mn.proTxHash) ∧
      (∀ p hsh, mapFind l.mnUniquePropertyMap p = some hsh →
        ∃ mn ∈ l.mnMap, mn.proTxHash = hsh ∧ holdsProp mn p)) ∧
    (∀ tx proTx e, tx.payload = some (.reg proTx) → e ∈ l.mnMap →
      (e.state.keyIDOwner = proTx.keyIDOwner ∨ e.state.addr = proTx.addr ∨
        e.collateralOutpoint = proTx.collateralOutpoint) →
      CheckProRegTx O (some l) tx = false) := by
  have hinv := reachableMNList_inv O l hreach
  obtain ⟨hkeys, hprops, hfwd, hrev⟩ := hinv
  refine ⟨⟨hprops, hfwd, hrev⟩, ?_⟩
  intro tx proTx e hpl he hcol
  exact checkProRegTx_collision_rejected O l ⟨hkeys, hprops, hfwd, hrev⟩
    tx proTx e hpl he hcol

/-- C4 witness: processing the single-registration block `[c4RegTx]` on the
empty list is a `ReachableMNList` step, so the resulting one-entry list
satisfies every conclusion of the theorem. -/
theorem C4_reachable_list_unique_witness :
    (c4L1.mnMap.Pairwise distinctProps ∧
      (∀ mn ∈ c4L1.mnMap,
        mapFind c4L1.mnUniquePropertyMap (.utxo mn.collateralOutpoint) =
          some mn.proTxHash ∧
        mapFind c4L1.mnUniquePropertyMap (.addr mn.state.addr) =
          some mn.proTxHash ∧
        mapFind c4L1.mnUniquePropertyMap (.key mn.state.keyIDOwner) =
          some mn.proTxHash) ∧
      (∀ p hsh, mapFind c4L1.mnUniquePropertyMap p = some hsh →
        ∃ mn ∈ c4L1.mnMap, mn.proTxHash = hsh ∧ holdsProp mn p)) ∧
    (∀ tx proTx e, tx.payload = some (.reg proTx) → e ∈ c4L1.mnMap →
      (e.state.keyIDOwner = proTx.keyIDOwner ∨ e.state.addr = proTx.addr ∨
        e.collateralOutpoint = proTx.collateralOutpoint) →
      CheckProRegTx c4Oracles (some c4L1) tx = false) :=
  C4_reachable_list_unique c4Oracles c4L1
    (ReachableMNList.step c4L0 c4L1 1 1 [c4RegTx]
      (ReachableMNList.base 0 0) (by decide) (by decide) (by decide) rfl)

/-- C4 counterexample to the unamended claim: both registrations of the
block `[c4RegTx, c4RegTxB]` share endpoint 10, yet each passes
`CheckSpecialTx` against the previous (empty) list — the source checks
every transaction of a block against `GetListForBlock(pindexPrev)` only —
and processing the block succeeds, producing a list with two distinct
entries sharing an endpoint. -/
theorem C4_counterexample :
    (∀ tx ∈ [c4RegTx, c4RegTxB],
      CheckSpecialTx c4Oracles (some c4L0) tx = true) ∧
    ProcessBlockMNList c4L0 1 1 [c4RegTx, c4RegTxB] = .ok c4L2 ∧
    ∃ a ∈ c4L2.mnMap, ∃ b ∈ c4L2.mnMap,
      a.proTxHash ≠ b.proTxHash ∧ a.state.addr = b.state.addr :=
  ⟨by decide, rfl, by decide⟩
